import Mathlib

/-!
Verification development for the valkyrie software rasterizer
(src/valkyrie/gfx.cpp).  The C++ code is shallowly embedded: 32-bit
floats are modelled as exact rationals, mutable buffers as total
functions from integer coordinates together with explicit state
passing, and the do-while loops of the scanline rasterizer as
fuel-indexed recursions whose fuel is exactly the iteration count of
the corresponding loop.  Every buffer access of the inner loop is
recorded in a trace so that the bounds assertions of the source can be
stated as propositions about the trace.
-/

set_option maxHeartbeats 1000000

/-- std::round for floats, modelled on the rationals: nearest integer,
halfway cases away from zero. -/
def ratRound (q : ℚ) : ℤ :=
  if 0 ≤ q then ⌊q + 1 / 2⌋ else -⌊(-q) + 1 / 2⌋

/-- static_cast from a float to a 32-bit integer: truncation toward zero. -/
def ratTrunc (q : ℚ) : ℤ :=
  if 0 ≤ q then ⌊q⌋ else -⌊-q⌋

/-- std::lerp(a, b, t) = a + t * (b - a). -/
def stdLerp (a b t : ℚ) : ℚ := a + t * (b - a)

/-- vec4f: homogeneous position, four float components. -/
structure vec4f where
  x : ℚ
  y : ℚ
  z : ℚ
  w : ℚ
  deriving DecidableEq

/-- Component access position[i] used by the clipper (0 = x, 1 = y, 2 = z). -/
def vcomp (v : vec4f) : ℕ → ℚ
  | 0 => v.x
  | 1 => v.y
  | 2 => v.z
  | _ => v.w

def vadd (a b : vec4f) : vec4f := ⟨a.x + b.x, a.y + b.y, a.z + b.z, a.w + b.w⟩

def vsub (a b : vec4f) : vec4f := ⟨a.x - b.x, a.y - b.y, a.z - b.z, a.w - b.w⟩

def vdiv (a : vec4f) (q : ℚ) : vec4f := ⟨a.x / q, a.y / q, a.z / q, a.w / q⟩

def vec4_lerp (a b : vec4f) (t : ℚ) : vec4f :=
  ⟨stdLerp a.x b.x t, stdLerp a.y b.y t, stdLerp a.z b.z t, stdLerp a.w b.w t⟩

/-- A per-vertex attribute: an ordered list of float components
(attribute::data together with attribute::size). -/
abbrev attrData := List ℚ

/-- attribute::lerp: component-wise std::lerp. -/
def attr_lerp (a b : attrData) (t : ℚ) : attrData :=
  List.zipWith (fun u v => stdLerp u v t) a b

/-- vertex: homogeneous position plus the populated attribute list. -/
structure vertex where
  position : vec4f
  attributes : List attrData
  deriving DecidableEq

/-- vertex::lerp: std::lerp of all four position components and of every
attribute component. -/
def vertex.lerp (a b : vertex) (t : ℚ) : vertex :=
  ⟨vec4_lerp a.position b.position t,
   List.zipWith (fun u v => attr_lerp u v t) a.attributes b.attributes⟩

/-- line3d: a directed segment in vertex space (field end of the source
is called stop here because end is reserved). -/
structure line3d where
  start : vertex
  stop : vertex

/-- line3d_stepper::calc_steps_based_on. -/
inductive calc_steps_based_on where
  | largest_difference
  | x_difference
  | y_difference

structure line3d_stepper where
  current : vertex
  increment : vertex
  steps : ℤ
  i : ℤ
  deriving DecidableEq

/-- The default-initialized vertex used for the increment when the
constructor returns early at steps == 0 (the C++ leaves it
uninitialized and never reads it; we pin it to zero). -/
def zeroVertex : vertex := ⟨⟨0, 0, 0, 0⟩, []⟩

/-- Rounding of x and y to the nearest integer pixel position performed
by the stepper constructor on both endpoints. -/
def roundXY (v : vertex) : vertex :=
  { v with position :=
      { v.position with
          x := ((ratRound v.position.x : ℤ) : ℚ),
          y := ((ratRound v.position.y : ℤ) : ℚ) } }

/-- line3d_stepper constructor (gfx.cpp lines 28-74): round the
endpoints, set current to the rounded start, compute the step count
from the chosen difference, and if it is non-zero compute the per-step
increment for position and every attribute component. -/
def line3d_stepper.init (line : line3d) (line_type : calc_steps_based_on) :
    line3d_stepper :=
  let s := roundXY line.start
  let e := roundXY line.stop
  let difference := vsub e.position s.position
  let steps : ℤ :=
    match line_type with
    | .largest_difference => ratTrunc (max |difference.x| |difference.y|)
    | .x_difference => ratTrunc |difference.x|
    | .y_difference => ratTrunc |difference.y|
  if steps = 0 then ⟨s, zeroVertex, 0, 0⟩
  else
    ⟨s,
     ⟨vdiv difference (steps : ℚ),
      List.zipWith
        (fun u v => List.zipWith (fun p q => (q - p) / (steps : ℚ)) u v)
        line.start.attributes line.stop.attributes⟩,
     steps, 0⟩

/-- line3d_stepper::step (gfx.cpp lines 76-92): exhausted when the
progress counter reaches the step count, otherwise advance position and
attributes by the increment. -/
def line3d_stepper.step (st : line3d_stepper) : Bool × line3d_stepper :=
  if st.i = st.steps then (false, st)
  else
    (true,
     { st with
         current :=
           ⟨vadd st.current.position st.increment.position,
            List.zipWith (fun u v => List.zipWith (· + ·) u v)
              st.current.attributes st.increment.attributes⟩,
         i := st.i + 1 })

/-- Packed RGB pixel of the color buffer (byte3). -/
structure byte3 where
  r : ℕ
  g : ℕ
  b : ℕ
  deriving DecidableEq

/-- The color buffer: dimensions plus per-cell contents, modelled as a
total function on integer coordinates. -/
structure color_buffer where
  width : ℤ
  height : ℤ
  data : ℤ → ℤ → byte3

/-- The depth buffer: per-pixel float depth. -/
structure depth_buffer where
  width : ℤ
  height : ℤ
  data : ℤ → ℤ → ℚ

/-- One buffer access of the scanline inner loop, as checked by the
in-loop bounds assertions (gfx.cpp lines 203-204 and 218-219). -/
inductive access where
  | depthAt (x y : ℤ)
  | colorAt (x y : ℤ)
  deriving DecidableEq

/-- The mutable state threaded through fill_triangle: the two optional
buffers plus the trace of every buffer access performed. -/
structure render_state where
  color : Option color_buffer
  depth : Option depth_buffer
  trace : List access

def db_write (db : depth_buffer) (x y : ℤ) (z : ℚ) : depth_buffer :=
  { db with data := fun a b => if a = x ∧ b = y then z else db.data a b }

def cb_write (cb : color_buffer) (x y : ℤ) (c : byte3) : color_buffer :=
  { cb with data := fun a b => if a = x ∧ b = y then c else cb.data a b }

/-- The color-buffer half of the pixel body (gfx.cpp lines 217-226):
consult the pixel shader and write the color only when it returns one. -/
def color_part (shader : vertex → Option byte3) (v : vertex) (x y : ℤ)
    (s : render_state) : render_state :=
  match s.color with
  | some cb =>
    let s := { s with trace := access.colorAt x y :: s.trace }
    match shader v with
    | some col => { s with color := some (cb_write cb x y col) }
    | none => s
  | none => s

/-- The body of the scanline inner loop (gfx.cpp lines 198-226): depth
test against the stored depth with strict less-than, store the new
depth on success, then the color-buffer half; on failure skip the color
update (continue). -/
def process_pixel (shader : vertex → Option byte3) (v : vertex)
    (s : render_state) : render_state :=
  let x := ratTrunc v.position.x
  let y := ratTrunc v.position.y
  match s.depth with
  | some db =>
    let s := { s with trace := access.depthAt x y :: s.trace }
    if v.position.z < db.data x y then
      color_part shader v x y { s with depth := some (db_write db x y v.position.z) }
    else s
  | none => color_part shader v x y s

/-- The inner do-while of the scanline sweep: process the current pixel,
then step; the fuel passed at the call site is exactly the iteration
count steps + 1 of the do-while. -/
def pixel_loop (shader : vertex → Option byte3) :
    ℕ → line3d_stepper → render_state → render_state
  | 0, _, s => s
  | fuel + 1, lx, s =>
    let s := process_pixel shader lx.current s
    let r := lx.step
    if r.1 then pixel_loop shader fuel r.2 s else s

/-- The outer do-while over scanlines (gfx.cpp lines 193-230): build the
x-driven stepper between the two edge currents, sweep it, then step
both edge steppers (short-circuit: the right edge is not stepped when
the left edge is exhausted). -/
def scan_loop (shader : vertex → Option byte3) :
    ℕ → line3d_stepper → line3d_stepper → render_state → render_state
  | 0, _, _, s => s
  | fuel + 1, la, lb, s =>
    let lx := line3d_stepper.init ⟨la.current, lb.current⟩ .x_difference
    let s := pixel_loop shader (lx.steps.toNat + 1) lx s
    let ra := la.step
    if ra.1 then
      let rb := lb.step
      if rb.1 then scan_loop shader fuel ra.2 rb.2 s else s
    else s

/-- render_triangle_from_lines (gfx.cpp lines 184-231): sort the two
lines by starting x, make the two y-driven edge steppers, and run the
scanline loop; its do-while executes min(stepsA, stepsB) + 1 times,
which is the fuel passed. -/
def render_from_lines (shader : vertex → Option byte3) (s : render_state)
    (a b : line3d) : render_state :=
  let p := if a.start.position.x > b.start.position.x then (b, a) else (a, b)
  let la := line3d_stepper.init p.1 .y_difference
  let lb := line3d_stepper.init p.2 .y_difference
  scan_loop shader ((min la.steps lb.steps).toNat + 1) la lb s

/-- W division (homogeneous clip space to NDC): x, y, z divided by w,
w kept. -/
def wdivV (v : vertex) : vertex :=
  { v with position :=
      ⟨v.position.x / v.position.w, v.position.y / v.position.w,
       v.position.z / v.position.w, v.position.w⟩ }

/-- Viewport transformation: map [-1, 1] to the framebuffer and round to
the nearest pixel position. -/
def viewportV (W H : ℤ) (v : vertex) : vertex :=
  { v with position :=
      { v.position with
          x := ((ratRound ((v.position.x + 1) / 2 * ((W : ℚ) - 1)) : ℤ) : ℚ),
          y := ((ratRound ((v.position.y + 1) / 2 * ((H : ℚ) - 1)) : ℤ) : ℚ) } }

/-- The three conditional swaps sorting the vertices by ascending y. -/
def sortByY (a b c : vertex) : vertex × vertex × vertex :=
  let p := if a.position.y > b.position.y then (b, a) else (a, b)
  let q := if p.1.position.y > c.position.y then (c, p.1) else (p.1, c)
  let r := if p.2.position.y > q.2.position.y then (q.2, p.2) else (p.2, q.2)
  (q.1, r.1, r.2)

/-- Framebuffer width: from the color buffer when present, else from the
depth buffer (at least one must be present for a render call). -/
def fbW (s : render_state) : ℤ :=
  match s.color with
  | some cb => cb.width
  | none =>
    match s.depth with
    | some db => db.width
    | none => 0

def fbH (s : render_state) : ℤ :=
  match s.color with
  | some cb => cb.height
  | none =>
    match s.depth with
    | some db => db.height
    | none => 0

/-- fill_triangle (gfx.cpp lines 136-252); assumes the triangle is
entirely visible.  W division, viewport transform, sort by y, then
flat-top / flat-bottom decomposition driving the scanline rasterizer. -/
def fill_triangle (shader : vertex → Option byte3) (s : render_state)
    (v0 v1 v2 : vertex) : render_state :=
  let u0 := viewportV (fbW s) (fbH s) (wdivV v0)
  let u1 := viewportV (fbW s) (fbH s) (wdivV v1)
  let u2 := viewportV (fbW s) (fbH s) (wdivV v2)
  let t := sortByY u0 u1 u2
  let a := t.1
  let b := t.2.1
  let c := t.2.2
  if a.position.y = b.position.y then
    render_from_lines shader s ⟨a, c⟩ ⟨b, c⟩
  else if b.position.y = c.position.y then
    render_from_lines shader s ⟨a, b⟩ ⟨a, c⟩
  else
    let lerp_amount := (b.position.y - a.position.y) / (c.position.y - a.position.y)
    let vertex3 := vertex.lerp a c lerp_amount
    render_from_lines shader
      (render_from_lines shader s ⟨a, b⟩ ⟨a, vertex3⟩) ⟨b, c⟩ ⟨vertex3, c⟩

/-- The half-space inside test of the clipper: sign * component <= w. -/
def inside_sc (sign : ℚ) (ci : ℕ) (v : vertex) : Prop :=
  sign * vcomp v.position ci ≤ v.position.w

instance (sign : ℚ) (ci : ℕ) (v : vertex) : Decidable (inside_sc sign ci v) := by
  unfold inside_sc; infer_instance

/-- The interpolation parameter at the plane crossing, from the signed
distances w - component. -/
def clip_t (sign : ℚ) (ci : ℕ) (prevV currV : vertex) : ℚ :=
  (prevV.position.w - sign * vcomp prevV.position ci) /
  ((prevV.position.w - sign * vcomp prevV.position ci) -
   (currV.position.w - sign * vcomp currV.position ci))

/-- The emissions of one edge (prev, curr) of a Sutherland-Hodgman
half-space clip (gfx.cpp lines 259-280): an interpolated crossing
vertex when the inside flags differ, then curr itself when inside. -/
def clipEmit (sign : ℚ) (ci : ℕ) (prevV currV : vertex) : List vertex :=
  (if ¬(inside_sc sign ci currV ↔ inside_sc sign ci prevV) then
      [vertex.lerp prevV currV (clip_t sign ci prevV currV)]
    else []) ++
  (if inside_sc sign ci currV then [currV] else [])

/-- The half-space clip walk: the source iterates i over the ring with
prev = ring[(i - 1 + n) % n]; carrying prev explicitly is the same
traversal (prev of the first element is the last element). -/
def clipGo (sign : ℚ) (ci : ℕ) : vertex → List vertex → List vertex
  | _, [] => []
  | prevV, c :: rest => clipEmit sign ci prevV c ++ clipGo sign ci c rest

def clipHalf (sign : ℚ) (ci : ℕ) (ring : List vertex) : List vertex :=
  match ring with
  | [] => []
  | v :: vs => clipGo sign ci (List.getLast (v :: vs) (List.cons_ne_nil v vs)) (v :: vs)

/-- triangle_clip_component (gfx.cpp lines 254-290): clip against the
positive half-space, and if anything is left against the negative one. -/
def triangle_clip_component (ring : List vertex) (ci : ℕ) : List vertex :=
  let result := clipHalf 1 ci ring
  if result = [] then result else clipHalf (-1) ci result

/-- triangle_clip (gfx.cpp lines 292-306): x, then y, then z, stopping
at the first empty ring. -/
def triangle_clip (v0 v1 v2 : vertex) : List vertex :=
  let result := triangle_clip_component [v0, v1, v2] 0
  if result = [] then result
  else
    let result := triangle_clip_component result 1
    if result = [] then result
    else triangle_clip_component result 2

/-- The per-vertex visibility test of render_triangle (gfx.cpp lines
312-314). -/
def visible_point (p : vec4f) : Prop :=
  p.x ≥ -p.w ∧ p.x ≤ p.w ∧ p.y ≥ -p.w ∧ p.y ≤ p.w ∧ p.z ≥ -p.w ∧ p.z ≤ p.w

instance (p : vec4f) : Decidable (visible_point p) := by
  unfold visible_point; infer_instance

/-- The fan triangulation of the clipped ring (gfx.cpp lines 340-342):
for i in [1, size - 1) the triangle (ring[0], ring[i], ring[i+1]);
the assert at line 338 guarantees size >= 3 on this path. -/
def fanTriangles (ring : List vertex) : List (vertex × vertex × vertex) :=
  match ring with
  | [] => []
  | r0 :: rest => (rest.zip rest.tail).map (fun p => (r0, p.1, p.2))

/-- render_triangle (gfx.cpp lines 308-343): all visible - direct fill;
none visible - discard; otherwise clip and fan-fill. -/
def render_triangle (shader : vertex → Option byte3) (s : render_state)
    (v0 v1 v2 : vertex) : render_state :=
  if visible_point v0.position ∧ visible_point v1.position ∧ visible_point v2.position then
    fill_triangle shader s v0 v1 v2
  else if ¬visible_point v0.position ∧ ¬visible_point v1.position ∧
      ¬visible_point v2.position then
    s
  else
    (fanTriangles (triangle_clip v0 v1 v2)).foldl
      (fun st t => fill_triangle shader st t.1 t.2.1 t.2.2) s

/-- color_rgba of the second source variant. -/
structure color_rgba where
  r : ℕ
  g : ℕ
  b : ℕ
  a : ℕ
  deriving DecidableEq

/-- default_color_blend (gfx.cpp lines 576-582): returns the new color
unchanged. -/
def default_color_blend (_old_color new_color : color_rgba) : color_rgba :=
  new_color

structure color_buffer_rgba where
  width : ℤ
  height : ℤ
  data : ℤ → ℤ → color_rgba

structure rgba_state where
  color : Option color_buffer_rgba
  depth : Option depth_buffer

def cbr_write (cb : color_buffer_rgba) (x y : ℤ) (c : color_rgba) : color_buffer_rgba :=
  { cb with data := fun a b => if a = x ∧ b = y then c else cb.data a b }

/-- The pixel body of raster_triangle_scanline (gfx.cpp lines 654-685):
same strict less-than depth test; on success the color write blends the
old stored color with the shaded color. -/
def process_pixel_rgba (shader : vertex → color_rgba)
    (blend : color_rgba → color_rgba → color_rgba) (v : vertex)
    (s : rgba_state) : rgba_state :=
  let x := ratTrunc v.position.x
  let y := ratTrunc v.position.y
  let colorStep := fun (s : rgba_state) =>
    match s.color with
    | some cb =>
      { s with color := some (cbr_write cb x y (blend (cb.data x y) (shader v))) }
    | none => s
  match s.depth with
  | some db =>
    if v.position.z < db.data x y then
      colorStep { s with depth := some (db_write db x y v.position.z) }
    else s
  | none => colorStep s

/-- vmod_parser::get_next_int loop body (gfx.cpp lines 418-447).  Note
the source reads buf.at(byte_pos + i) where byte_pos has already been
incremented once per previous iteration, so iteration i reads the byte
at offset first + 2 * i; this is modelled faithfully.  buf.at throws on
out-of-range access, modelled as none. -/
def get_next_int_go (buf : List ℕ) : ℕ → ℕ → ℕ → ℕ → Option (ℕ × ℕ)
  | 0, pos, _, result => some (result, pos)
  | rem + 1, pos, i, result =>
    match buf.get? (pos + i) with
    | none => none
    | some byte =>
      if i < 3 then
        let is_last_bit_set := 128 ≤ byte
        let b7 := byte % 128
        let result := result ||| (b7 <<< (i * 7))
        if is_last_bit_set then get_next_int_go buf rem (pos + 1) (i + 1) result
        else some (result, pos + 1)
      else some (result ||| (byte <<< (i * 7)), pos + 1)

/-- vmod_parser::get_next_int: returns the decoded value and the final
byte position.  The loop bound i < 4 is carried as the structural
countdown 4 - i. -/
def get_next_int (buf : List ℕ) (byte_pos : ℕ) : Option (ℕ × ℕ) :=
  get_next_int_go buf 4 byte_pos 0 0

/-- Modelled from the spec: the repository contains no encoder for its
variable-length integer format, so the standard encoding of section 4.5
is modelled here from the spec words - little-endian, 7 bits per byte,
continuation flag in the high bit of each of the first three bytes, and
a full 8-bit fourth byte with no flag. -/
def vmod_encode_int (v : ℕ) : List ℕ :=
  if v < 128 then [v]
  else if v < 16384 then [128 + v % 128, v / 128]
  else if v < 2097152 then [128 + v % 128, 128 + (v / 128) % 128, v / 16384]
  else [128 + v % 128, 128 + (v / 128) % 128, 128 + (v / 16384) % 128,
        (v / 2097152) % 256]

/-- Reference decoder modelled from the spec words (consecutive bytes,
continuation in the high bit of each of the first three bytes, full
fourth byte), used to compare against the source decoder. -/
def spec_decode_int (buf : List ℕ) (pos : ℕ) : Option ℕ :=
  match buf.get? pos with
  | none => none
  | some b0 =>
    if b0 < 128 then some b0
    else
      match buf.get? (pos + 1) with
      | none => none
      | some b1 =>
        if b1 < 128 then some (b0 % 128 + b1 * 128)
        else
          match buf.get? (pos + 2) with
          | none => none
          | some b2 =>
            if b2 < 128 then some (b0 % 128 + (b1 % 128) * 128 + b2 * 16384)
            else
              match buf.get? (pos + 3) with
              | none => none
              | some b3 =>
                some (b0 % 128 + (b1 % 128) * 128 + (b2 % 128) * 16384 +
                      b3 * 2097152)

/-- Replace the z component of a vertex position (used to relate two
renderings of the same triangle that differ only in depth). -/
def setZc (c : ℚ) (v : vertex) : vertex :=
  { v with position := { v.position with z := c } }

/-- Erase the z components of a stepper; the scanline control flow and
the pixel coordinates it produces are invariant under this. -/
def zzSt (st : line3d_stepper) : line3d_stepper :=
  { st with current := setZc 0 st.current, increment := setZc 0 st.increment }

/-- The z-component shape of a stepper interpolating a constant depth c:
current z is c and the per-step z increment is zero. -/
def zConstSt (c : ℚ) (st : line3d_stepper) : Prop :=
  st.current.position.z = c ∧ st.increment.position.z = 0

/-- Mirror of pixel_loop that records the pixel coordinates the loop
passes to the buffer accesses, without touching any state. -/
def visits_pixel : ℕ → line3d_stepper → List (ℤ × ℤ)
  | 0, _ => []
  | fuel + 1, lx =>
    (ratTrunc lx.current.position.x, ratTrunc lx.current.position.y) ::
    (let r := lx.step
     if r.1 then visits_pixel fuel r.2 else [])

/-- Mirror of scan_loop collecting all pixel coordinates swept. -/
def visits_scan : ℕ → line3d_stepper → line3d_stepper → List (ℤ × ℤ)
  | 0, _, _ => []
  | fuel + 1, la, lb =>
    let lx := line3d_stepper.init ⟨la.current, lb.current⟩ .x_difference
    visits_pixel (lx.steps.toNat + 1) lx ++
    (let ra := la.step
     if ra.1 then
       let rb := lb.step
       if rb.1 then visits_scan fuel ra.2 rb.2 else []
     else [])

/-- Mirror of render_from_lines. -/
def visits_from_lines (a b : line3d) : List (ℤ × ℤ) :=
  let p := if a.start.position.x > b.start.position.x then (b, a) else (a, b)
  let la := line3d_stepper.init p.1 .y_difference
  let lb := line3d_stepper.init p.2 .y_difference
  visits_scan ((min la.steps lb.steps).toNat + 1) la lb

/-- Mirror of fill_triangle collecting the pixel coordinates of every
buffer access the fill performs. -/
def fill_visits (W H : ℤ) (v0 v1 v2 : vertex) : List (ℤ × ℤ) :=
  let u0 := viewportV W H (wdivV v0)
  let u1 := viewportV W H (wdivV v1)
  let u2 := viewportV W H (wdivV v2)
  let t := sortByY u0 u1 u2
  let a := t.1
  let b := t.2.1
  let c := t.2.2
  if a.position.y = b.position.y then
    visits_from_lines ⟨a, c⟩ ⟨b, c⟩
  else if b.position.y = c.position.y then
    visits_from_lines ⟨a, b⟩ ⟨a, c⟩
  else
    let lerp_amount := (b.position.y - a.position.y) / (c.position.y - a.position.y)
    let vertex3 := vertex.lerp a c lerp_amount
    visits_from_lines ⟨a, b⟩ ⟨a, vertex3⟩ ++ visits_from_lines ⟨b, c⟩ ⟨vertex3, c⟩

/-- A pixel coordinate lies in the {[0,W) x [0,H)} rectangle. -/
def inB (W H : ℤ) (p : ℤ × ℤ) : Prop :=
  0 ≤ p.1 ∧ p.1 < W ∧ 0 ≤ p.2 ∧ p.2 < H

/-- The in-loop bounds assertions of fill_triangle, stated for one
recorded access against the buffers of a state: a depth access must be
inside the depth buffer, a color access inside the color buffer. -/
def access_ok (s : render_state) : access → Prop
  | .depthAt x y => ∀ db, s.depth = some db →
      0 ≤ x ∧ x < db.width ∧ 0 ≤ y ∧ y < db.height
  | .colorAt x y => ∀ cb, s.color = some cb →
      0 ≤ x ∧ x < cb.width ∧ 0 ≤ y ∧ y < cb.height

/-- An access lies in the common {[0,W) x [0,H)} rectangle. -/
def access_in (W H : ℤ) : access → Prop
  | .depthAt x y => 0 ≤ x ∧ x < W ∧ 0 ≤ y ∧ y < H
  | .colorAt x y => 0 ≤ x ∧ x < W ∧ 0 ≤ y ∧ y < H

/-- Both present buffers of a state have dimensions W x H. -/
def dims_eq (s : render_state) (W H : ℤ) : Prop :=
  (∀ cb, s.color = some cb → cb.width = W ∧ cb.height = H) ∧
  (∀ db, s.depth = some db → db.width = W ∧ db.height = H)

/-- A vertex whose pixel position lies in the {[0,W-1] x [0,H-1]} box
(rational coordinates). -/
def vBox (W H : ℤ) (v : vertex) : Prop :=
  0 ≤ v.position.x ∧ v.position.x ≤ (W : ℚ) - 1 ∧
  0 ≤ v.position.y ∧ v.position.y ≤ (H : ℚ) - 1

/-- Stepper box invariant: every present and future current position of
the stepper stays inside the pixel box. -/
def stBox (W H : ℤ) (st : line3d_stepper) : Prop :=
  st.i ≤ st.steps ∧
  ∀ k : ℤ, 0 ≤ k → k ≤ st.steps - st.i →
    0 ≤ st.current.position.x + k * st.increment.position.x ∧
    st.current.position.x + k * st.increment.position.x ≤ (W : ℚ) - 1 ∧
    0 ≤ st.current.position.y + k * st.increment.position.y ∧
    st.current.position.y + k * st.increment.position.y ≤ (H : ℚ) - 1

/-- The clip-space condition |x| <= w and |y| <= w under which the
fill's viewport-transformed pixel positions are in bounds. -/
def inXYW (v : vertex) : Prop :=
  |v.position.x| ≤ v.position.w ∧ |v.position.y| ≤ v.position.w

/-- Number of adjacent flag changes along a walk, seeded with the flag
of the predecessor of the first element. -/
def flips : Bool → List Bool → ℕ
  | _, [] => 0
  | p, c :: rest => (if p ≠ c then 1 else 0) + flips c rest

/-- The shapes (presence and dimensions) of the two buffers of a state;
the rasterizer never changes it. -/
def bufShape (s : render_state) : Option (ℤ × ℤ) × Option (ℤ × ℤ) :=
  (s.color.map fun cb => (cb.width, cb.height),
   s.depth.map fun db => (db.width, db.height))

/-- Number of ring vertices inside a clip half-space. -/
def vcountIn (sign : ℚ) (ci : ℕ) : List vertex → ℕ
  | [] => 0
  | c :: rest => (if inside_sc sign ci c then 1 else 0) + vcountIn sign ci rest

/-- Number of inside/outside transitions along a vertex walk, seeded
with the predecessor of the first element. -/
def vflips (sign : ℚ) (ci : ℕ) : vertex → List vertex → ℕ
  | _, [] => 0
  | p, c :: rest =>
    (if ¬(inside_sc sign ci c ↔ inside_sc sign ci p) then 1 else 0) +
    vflips sign ci c rest

/-! ## Helper lemmas -/

theorem natLorLt {x y n : ℕ} (hx : x < 2 ^ n) (hy : y < 2 ^ n) : x ||| y < 2 ^ n :=
  Nat.bitwise_lt hx hy

theorem ratTrunc_zero : ratTrunc 0 = 0 := by
  simp [ratTrunc]

theorem init_self_eq (v : vertex) (pol : calc_steps_based_on) :
    line3d_stepper.init ⟨v, v⟩ pol = ⟨roundXY v, zeroVertex, 0, 0⟩ := by
  unfold line3d_stepper.init
  cases pol <;> simp [vsub, sub_self, ratTrunc_zero, ratTrunc]

theorem get_next_int_go_range (buf : List ℕ) (hbuf : ∀ b ∈ buf, b < 256) :
    ∀ rem pos i result v pos', i + rem = 4 → result < 2 ^ 29 →
      get_next_int_go buf rem pos i result = some (v, pos') → v < 2 ^ 29 := by
  intro rem
  induction rem with
  | zero =>
    intro pos i result v pos' _ hres h
    simp only [get_next_int_go, Option.some.injEq, Prod.mk.injEq] at h
    omega
  | succ n ih =>
    intro pos i result v pos' hi hres h
    simp only [get_next_int_go] at h
    cases hb : buf.get? (pos + i) with
    | none => rw [hb] at h; exact absurd h (by simp)
    | some byte =>
      rw [hb] at h
      dsimp only at h
      have hbyte : byte < 256 := hbuf byte (List.get?_mem hb)
      by_cases h3 : i < 3
      · rw [if_pos h3] at h
        have hb7 : (byte % 128) <<< (i * 7) < 2 ^ 29 := by
          have h1 : byte % 128 < 2 ^ 7 := Nat.mod_lt _ (by norm_num)
          have h2 : (byte % 128) <<< (i * 7) < 2 ^ (7 + i * 7) := Nat.shiftLeft_lt h1
          exact lt_of_lt_of_le h2 (Nat.pow_le_pow_right (by norm_num) (by omega))
        have hres' : result ||| (byte % 128) <<< (i * 7) < 2 ^ 29 := natLorLt hres hb7
        by_cases hlast : 128 ≤ byte
        · rw [if_pos hlast] at h
          exact ih (pos + 1) (i + 1) _ v pos' (by omega) hres' h
        · rw [if_neg hlast] at h
          simp only [Option.some.injEq, Prod.mk.injEq] at h
          exact h.1 ▸ hres'
      · rw [if_neg h3] at h
        have hsh : byte <<< (i * 7) < 2 ^ 29 := by
          have hi3 : i = 3 := by omega
          subst hi3
          have h2 : byte <<< 21 < 2 ^ (8 + 21) := Nat.shiftLeft_lt hbyte
          simpa using h2
        have hres' : result ||| byte <<< (i * 7) < 2 ^ 29 := natLorLt hres hsh
        simp only [Option.some.injEq, Prod.mk.injEq] at h
        exact h.1 ▸ hres'

/-! ## Claims -/

/-- C10: default_color_blend returns the new color unchanged for every
pair of colors; the old color and the new alpha are ignored. -/
theorem C10_default_blend_returns_new (old_color new_color : color_rgba) :
    default_color_blend old_color new_color = new_color := rfl

/-- C7: a stepper built from a line with start == end has steps == 0
under every step-count policy, its current vertex is the (pixel-rounded)
start and stays there, and the first step() call reports exhaustion
without mutating the stepper. -/
theorem C7_degenerate_stepper (v : vertex) (pol : calc_steps_based_on) :
    (line3d_stepper.init ⟨v, v⟩ pol).steps = 0 ∧
    (line3d_stepper.init ⟨v, v⟩ pol).current = roundXY v ∧
    (line3d_stepper.init ⟨v, v⟩ pol).step = (false, line3d_stepper.init ⟨v, v⟩ pol) := by
  rw [init_self_eq]
  refine ⟨rfl, rfl, ?_⟩
  simp [line3d_stepper.step]

/-- C1: evaluation of the source decoder at the standard encoding of
128.  The standard two-byte encoding [0x80, 0x01] of 128 (as produced
by the spec encoder) decodes to 0 under vmod_parser::get_next_int, with
the read position left at 2, while the spec decoder yields 128: the
loop reads buf.at(byte_pos + i) after byte_pos has already been
incremented i times, so the second byte read comes from offset 2
instead of offset 1. -/
theorem C1_decode_at_failing_input :
    vmod_encode_int 128 = [128, 1] ∧
    get_next_int (vmod_encode_int 128 ++ [0, 0, 0, 0, 0]) 0 = some (0, 2) ∧
    spec_decode_int (vmod_encode_int 128 ++ [0, 0, 0, 0, 0]) 0 = some 128 := by
  decide

/-- C9: whenever get_next_int succeeds on a buffer of bytes, the decoded
value lies in [0, 2^29 - 1] (it is a natural number by construction:
7 bits at shifts 0, 7, 14 plus 8 bits at shift 21). -/
theorem C9_varint_range (buf : List ℕ) (pos v pos' : ℕ)
    (hbuf : ∀ b ∈ buf, b < 256)
    (h : get_next_int buf pos = some (v, pos')) : v < 2 ^ 29 :=
  get_next_int_go_range buf hbuf 4 pos 0 0 v pos' rfl (by norm_num) h

theorem C9_witness :
    (∀ b ∈ [5, 200, 17], b < 256) ∧ get_next_int [5, 200, 17] 0 = some (5, 1) ∧
      5 < 2 ^ 29 :=
  ⟨by decide, by decide,
   C9_varint_range [5, 200, 17] 0 5 1 (by decide) (by decide)⟩

/-- C8: in the scanline pixel body, when the depth buffer is present and
the strict depth test passes, the new depth is stored even when the
pixel shader then returns no color; only the color write is skipped. -/
theorem C8_depth_written_before_shader (shader : vertex → Option byte3)
    (v : vertex) (s : render_state) (db : depth_buffer)
    (hd : s.depth = some db)
    (hz : v.position.z < db.data (ratTrunc v.position.x) (ratTrunc v.position.y))
    (hs : shader v = none) :
    (process_pixel shader v s).depth =
      some (db_write db (ratTrunc v.position.x) (ratTrunc v.position.y) v.position.z) ∧
    (process_pixel shader v s).color = s.color := by
  unfold process_pixel
  rw [hd]
  simp only [if_pos hz]
  unfold color_part
  cases hc : s.color <;> simp [hc, hs]

theorem C8_witness :
    ((⟨none, some ⟨1, 1, fun _ _ => 1⟩, []⟩ : render_state).depth =
        some ⟨1, 1, fun _ _ => 1⟩ ∧
      (zeroVertex.position.z <
        (⟨1, 1, fun _ _ => 1⟩ : depth_buffer).data (ratTrunc zeroVertex.position.x)
          (ratTrunc zeroVertex.position.y)) ∧
      (fun (_ : vertex) => (none : Option byte3)) zeroVertex = none) ∧
    (process_pixel (fun _ => none) zeroVertex ⟨none, some ⟨1, 1, fun _ _ => 1⟩, []⟩).depth =
      some (db_write ⟨1, 1, fun _ _ => 1⟩ (ratTrunc zeroVertex.position.x)
        (ratTrunc zeroVertex.position.y) zeroVertex.position.z) ∧
    (process_pixel (fun _ => none) zeroVertex ⟨none, some ⟨1, 1, fun _ _ => 1⟩, []⟩).color =
      (⟨none, some ⟨1, 1, fun _ _ => 1⟩, []⟩ : render_state).color := by
  refine ⟨⟨rfl, ?_, rfl⟩, ?_⟩
  · show (0 : ℚ) < 1
    decide
  · exact C8_depth_written_before_shader (fun _ => none) zeroVertex
      ⟨none, some ⟨1, 1, fun _ _ => 1⟩, []⟩ ⟨1, 1, fun _ _ => 1⟩ rfl
      (by show (0 : ℚ) < 1; decide) rfl

/-- C6: a triangle none of whose vertices passes the visibility test is
discarded: render_triangle returns the state unchanged, writing nothing
to either buffer. -/
theorem C6_discard_invisible (shader : vertex → Option byte3) (s : render_state)
    (v0 v1 v2 : vertex)
    (h0 : ¬visible_point v0.position) (h1 : ¬visible_point v1.position)
    (h2 : ¬visible_point v2.position) :
    render_triangle shader s v0 v1 v2 = s := by
  unfold render_triangle
  rw [if_neg (by tauto), if_pos ⟨h0, h1, h2⟩]

theorem C6_witness :
    (¬visible_point (⟨2, 0, 0, 1⟩ : vec4f) ∧ ¬visible_point (⟨3, 0, 0, 1⟩ : vec4f) ∧
      ¬visible_point (⟨4, 0, 0, 1⟩ : vec4f)) ∧
    render_triangle (fun _ => none) ⟨none, some ⟨1, 1, fun _ _ => 1⟩, []⟩
      ⟨⟨2, 0, 0, 1⟩, []⟩ ⟨⟨3, 0, 0, 1⟩, []⟩ ⟨⟨4, 0, 0, 1⟩, []⟩ =
      ⟨none, some ⟨1, 1, fun _ _ => 1⟩, []⟩ :=
  ⟨⟨by decide, by decide, by decide⟩,
   C6_discard_invisible (fun _ => none) ⟨none, some ⟨1, 1, fun _ _ => 1⟩, []⟩
     ⟨⟨2, 0, 0, 1⟩, []⟩ ⟨⟨3, 0, 0, 1⟩, []⟩ ⟨⟨4, 0, 0, 1⟩, []⟩
     (by decide) (by decide) (by decide)⟩

theorem inside_sc_pos (ci : ℕ) (v : vertex) :
    inside_sc 1 ci v ↔ vcomp v.position ci ≤ v.position.w := by
  unfold inside_sc; rw [one_mul]

theorem inside_sc_neg (ci : ℕ) (v : vertex) :
    inside_sc (-1) ci v ↔ -v.position.w ≤ vcomp v.position ci := by
  unfold inside_sc
  constructor <;> intro h <;> linarith

theorem clipGo_all_inside (sign : ℚ) (ci : ℕ) :
    ∀ (l : List vertex) (p : vertex), (∀ u ∈ l, inside_sc sign ci u) →
      inside_sc sign ci p → clipGo sign ci p l = l := by
  intro l
  induction l with
  | nil => intro p _ _; rfl
  | cons c rest ih =>
    intro p hl hp
    have hc : inside_sc sign ci c := hl c (by simp)
    show clipEmit sign ci p c ++ clipGo sign ci c rest = c :: rest
    rw [ih c (fun u hu => hl u (by simp [hu])) hc]
    unfold clipEmit
    rw [if_neg (by tauto), if_pos hc]
    rfl

theorem clipGo_all_outside (sign : ℚ) (ci : ℕ) :
    ∀ (l : List vertex) (p : vertex), (∀ u ∈ l, ¬inside_sc sign ci u) →
      ¬inside_sc sign ci p → clipGo sign ci p l = [] := by
  intro l
  induction l with
  | nil => intro p _ _; rfl
  | cons c rest ih =>
    intro p hl hp
    have hc : ¬inside_sc sign ci c := hl c (by simp)
    show clipEmit sign ci p c ++ clipGo sign ci c rest = []
    rw [ih c (fun u hu => hl u (by simp [hu])) hc]
    unfold clipEmit
    rw [if_neg (by tauto), if_neg hc]
    rfl

theorem clipHalf_all_inside (sign : ℚ) (ci : ℕ) (ring : List vertex)
    (h : ∀ u ∈ ring, inside_sc sign ci u) : clipHalf sign ci ring = ring := by
  cases ring with
  | nil => rfl
  | cons v vs =>
    exact clipGo_all_inside sign ci (v :: vs) _ h
      (h _ (List.getLast_mem (List.cons_ne_nil v vs)))

theorem clipHalf_all_outside (sign : ℚ) (ci : ℕ) (ring : List vertex)
    (h : ∀ u ∈ ring, ¬inside_sc sign ci u) : clipHalf sign ci ring = [] := by
  cases ring with
  | nil => rfl
  | cons v vs =>
    exact clipGo_all_outside sign ci (v :: vs) _ h
      (h _ (List.getLast_mem (List.cons_ne_nil v vs)))

theorem tcc_all_inside (ring : List vertex) (ci : ℕ)
    (h : ∀ u ∈ ring, inside_sc 1 ci u ∧ inside_sc (-1) ci u) :
    triangle_clip_component ring ci = ring := by
  unfold triangle_clip_component
  rw [clipHalf_all_inside 1 ci ring (fun u hu => (h u hu).1)]
  by_cases he : ring = []
  · simp [he]
  · rw [if_neg he]
    exact clipHalf_all_inside (-1) ci ring (fun u hu => (h u hu).2)

/-- C3: clipping a triangle whose three vertices all satisfy |x| <= w,
|y| <= w, |z| <= w returns exactly the same three vertices in order,
and clipping a triangle whose vertices all have x > w returns the
empty ring. -/
theorem C3_clip_inside_identity_outside_empty :
    (∀ v0 v1 v2 : vertex,
      (∀ u ∈ [v0, v1, v2],
        |u.position.x| ≤ u.position.w ∧ |u.position.y| ≤ u.position.w ∧
        |u.position.z| ≤ u.position.w) →
      triangle_clip v0 v1 v2 = [v0, v1, v2]) ∧
    (∀ v0 v1 v2 : vertex,
      (∀ u ∈ [v0, v1, v2], u.position.w < u.position.x) →
      triangle_clip v0 v1 v2 = []) := by
  constructor
  · intro v0 v1 v2 h
    have hin : ∀ ci ∈ [0, 1, 2], ∀ u ∈ [v0, v1, v2],
        inside_sc 1 ci u ∧ inside_sc (-1) ci u := by
      intro ci hci u hu
      obtain ⟨hx, hy, hz⟩ := h u hu
      fin_cases hci
      · rw [inside_sc_pos, inside_sc_neg]
        have := abs_le.mp hx
        exact ⟨this.2, this.1⟩
      · rw [inside_sc_pos, inside_sc_neg]
        have := abs_le.mp hy
        exact ⟨this.2, this.1⟩
      · rw [inside_sc_pos, inside_sc_neg]
        have := abs_le.mp hz
        exact ⟨this.2, this.1⟩
    unfold triangle_clip
    rw [tcc_all_inside _ 0 (hin 0 (by simp)), if_neg (by simp),
        tcc_all_inside _ 1 (hin 1 (by simp)), if_neg (by simp),
        tcc_all_inside _ 2 (hin 2 (by simp))]
  · intro v0 v1 v2 h
    have hout : ∀ u ∈ [v0, v1, v2], ¬inside_sc 1 0 u := by
      intro u hu
      rw [inside_sc_pos]
      exact not_le.mpr (h u hu)
    unfold triangle_clip
    unfold triangle_clip_component
    rw [clipHalf_all_outside 1 0 _ hout]
    simp

theorem C3_witness :
    ((∀ u ∈ [(⟨⟨0, 0, 0, 1⟩, []⟩ : vertex), ⟨⟨1, 0, 0, 1⟩, []⟩, ⟨⟨0, 1, 0, 1⟩, []⟩],
        |u.position.x| ≤ u.position.w ∧ |u.position.y| ≤ u.position.w ∧
        |u.position.z| ≤ u.position.w) ∧
      triangle_clip ⟨⟨0, 0, 0, 1⟩, []⟩ ⟨⟨1, 0, 0, 1⟩, []⟩ ⟨⟨0, 1, 0, 1⟩, []⟩ =
        [⟨⟨0, 0, 0, 1⟩, []⟩, ⟨⟨1, 0, 0, 1⟩, []⟩, ⟨⟨0, 1, 0, 1⟩, []⟩]) ∧
    ((∀ u ∈ [(⟨⟨2, 0, 0, 1⟩, []⟩ : vertex), ⟨⟨3, 0, 0, 1⟩, []⟩, ⟨⟨4, 0, 0, 1⟩, []⟩],
        u.position.w < u.position.x) ∧
      triangle_clip ⟨⟨2, 0, 0, 1⟩, []⟩ ⟨⟨3, 0, 0, 1⟩, []⟩ ⟨⟨4, 0, 0, 1⟩, []⟩ = []) :=
  ⟨⟨by decide,
    C3_clip_inside_identity_outside_empty.1 _ _ _ (by decide)⟩,
   ⟨by decide,
    C3_clip_inside_identity_outside_empty.2 _ _ _ (by decide)⟩⟩

theorem clipEmit_length (sign : ℚ) (ci : ℕ) (p c : vertex) :
    (clipEmit sign ci p c).length =
      (if ¬(inside_sc sign ci c ↔ inside_sc sign ci p) then 1 else 0) +
      (if inside_sc sign ci c then 1 else 0) := by
  unfold clipEmit
  rw [List.length_append]
  split_ifs <;> simp

theorem clipGo_length (sign : ℚ) (ci : ℕ) : ∀ (l : List vertex) (p : vertex),
    (clipGo sign ci p l).length = vcountIn sign ci l + vflips sign ci p l := by
  intro l
  induction l with
  | nil => intro p; rfl
  | cons c rest ih =>
    intro p
    show (clipEmit sign ci p c ++ clipGo sign ci c rest).length = _
    rw [List.length_append, clipEmit_length, ih c]
    simp only [vcountIn, vflips]
    ring

theorem vcountIn_pos (sign : ℚ) (ci : ℕ) :
    ∀ (l : List vertex) (v : vertex), v ∈ l → inside_sc sign ci v →
      1 ≤ vcountIn sign ci l := by
  intro l
  induction l with
  | nil => intro v hv; simp at hv
  | cons c rest ih =>
    intro v hv hin
    rcases List.mem_cons.mp hv with h | h
    · subst h
      simp only [vcountIn]
      rw [if_pos hin]
      omega
    · have := ih v h hin
      simp only [vcountIn]
      omega

theorem vflips_cons (sign : ℚ) (ci : ℕ) (p c : vertex) (rest : List vertex) :
    vflips sign ci p (c :: rest) =
      (if ¬(inside_sc sign ci c ↔ inside_sc sign ci p) then 1 else 0) +
      vflips sign ci c rest := rfl

theorem getLast?_single (c : vertex) : ([c] : List vertex).getLast? = some c := rfl

theorem vflips_one (sign : ℚ) (ci : ℕ) : ∀ (l : List vertex) (p q : vertex),
    l.getLast? = some q → ¬(inside_sc sign ci p ↔ inside_sc sign ci q) →
    1 ≤ vflips sign ci p l := by
  intro l
  induction l with
  | nil => intro p q hlast; simp at hlast
  | cons c rest ih =>
    intro p q hlast hne
    rw [vflips_cons]
    cases rest with
    | nil =>
      have hq : c = q := by
        rw [getLast?_single] at hlast
        exact Option.some.inj hlast
      subst hq
      rw [if_pos (by tauto)]
      omega
    | cons d rest' =>
      have hlast' : (d :: rest').getLast? = some q := by
        rwa [List.getLast?_cons_cons] at hlast
      by_cases hpc : inside_sc sign ci c ↔ inside_sc sign ci p
      · have h2 := ih c q hlast' (by tauto)
        omega
      · rw [if_pos (by tauto)]
        omega

theorem vflips_two (sign : ℚ) (ci : ℕ) : ∀ (l : List vertex) (p0 pl : vertex),
    l.getLast? = some pl → (inside_sc sign ci p0 ↔ inside_sc sign ci pl) →
    (∃ b ∈ l, ¬(inside_sc sign ci b ↔ inside_sc sign ci pl)) →
    2 ≤ vflips sign ci p0 l := by
  intro l
  induction l with
  | nil => intro p0 pl hlast; simp at hlast
  | cons c rest ih =>
    intro p0 pl hlast hp0 hex
    obtain ⟨b, hb, hbne⟩ := hex
    rw [vflips_cons]
    by_cases hpc : inside_sc sign ci c ↔ inside_sc sign ci pl
    · have hbrest : b ∈ rest := by
        rcases List.mem_cons.mp hb with h | h
        · subst h; tauto
        · exact h
      cases rest with
      | nil => simp at hbrest
      | cons d rest' =>
        have hlast' : (d :: rest').getLast? = some pl := by
          rwa [List.getLast?_cons_cons] at hlast
        have h2 := ih c pl hlast' hpc ⟨b, hbrest, hbne⟩
        omega
    · cases rest with
      | nil =>
        have hpl : c = pl := by
          rw [getLast?_single] at hlast
          exact Option.some.inj hlast
        subst hpl
        tauto
      | cons d rest' =>
        have hlast' : (d :: rest').getLast? = some pl := by
          rwa [List.getLast?_cons_cons] at hlast
        have h1 : 1 ≤ vflips sign ci c (d :: rest') :=
          vflips_one sign ci (d :: rest') c pl hlast' (by tauto)
        rw [if_pos (by tauto)]
        omega

theorem clipGo_mem (sign : ℚ) (ci : ℕ) :
    ∀ (l : List vertex) (p v : vertex), v ∈ l → inside_sc sign ci v →
      v ∈ clipGo sign ci p l := by
  intro l
  induction l with
  | nil => intro p v hv; simp at hv
  | cons c rest ih =>
    intro p v hv hin
    show v ∈ clipEmit sign ci p c ++ clipGo sign ci c rest
    rcases List.mem_cons.mp hv with h | h
    · subst h
      refine List.mem_append_left _ ?_
      unfold clipEmit
      refine List.mem_append_right _ ?_
      rw [if_pos hin]
      exact List.mem_singleton_self v
    · exact List.mem_append_right _ (ih c v h hin)

theorem clipGo_three (sign : ℚ) (ci : ℕ) (l : List vertex) (hne : l ≠ [])
    (hlen : 3 ≤ l.length) (v : vertex) (hv : v ∈ l) (hin : inside_sc sign ci v) :
    3 ≤ (clipGo sign ci (l.getLast hne) l).length := by
  by_cases hall : ∀ u ∈ l, inside_sc sign ci u
  · rw [clipGo_all_inside sign ci l _ hall (hall _ (List.getLast_mem hne))]
    exact hlen
  · push_neg at hall
    obtain ⟨u, hu, huout⟩ := hall
    rw [clipGo_length]
    have hc : 1 ≤ vcountIn sign ci l := vcountIn_pos sign ci l v hv hin
    have hlast : l.getLast? = some (l.getLast hne) :=
      List.getLast?_eq_getLast_of_ne_nil hne
    have hf : 2 ≤ vflips sign ci (l.getLast hne) l := by
      by_cases hl : inside_sc sign ci (l.getLast hne)
      · exact vflips_two sign ci l _ _ hlast Iff.rfl ⟨u, hu, by tauto⟩
      · exact vflips_two sign ci l _ _ hlast Iff.rfl ⟨v, hv, by tauto⟩
    omega

theorem clipHalf_three (sign : ℚ) (ci : ℕ) (ring : List vertex)
    (hlen : 3 ≤ ring.length) (v : vertex) (hv : v ∈ ring)
    (hin : inside_sc sign ci v) :
    3 ≤ (clipHalf sign ci ring).length ∧ v ∈ clipHalf sign ci ring := by
  cases ring with
  | nil => simp at hlen
  | cons c vs =>
    unfold clipHalf
    exact ⟨clipGo_three sign ci (c :: vs) (List.cons_ne_nil c vs) hlen v hv hin,
           clipGo_mem sign ci (c :: vs) _ v hv hin⟩

theorem tcc_three (ring : List vertex) (ci : ℕ) (hlen : 3 ≤ ring.length)
    (v : vertex) (hv : v ∈ ring) (h1 : inside_sc 1 ci v)
    (h2 : inside_sc (-1) ci v) :
    3 ≤ (triangle_clip_component ring ci).length ∧
      v ∈ triangle_clip_component ring ci := by
  obtain ⟨hl1, hm1⟩ := clipHalf_three 1 ci ring hlen v hv h1
  have hne : clipHalf 1 ci ring ≠ [] := by
    intro h; rw [h] at hl1; simp at hl1
  simp only [triangle_clip_component]
  rw [if_neg hne]
  exact clipHalf_three (-1) ci _ hl1 v hm1 h2

theorem visible_inside_all (v : vertex) (h : visible_point v.position) :
    (inside_sc 1 0 v ∧ inside_sc (-1) 0 v) ∧
    (inside_sc 1 1 v ∧ inside_sc (-1) 1 v) ∧
    (inside_sc 1 2 v ∧ inside_sc (-1) 2 v) := by
  obtain ⟨h1, h2, h3, h4, h5, h6⟩ := h
  refine ⟨⟨?_, ?_⟩, ⟨?_, ?_⟩, ⟨?_, ?_⟩⟩ <;> unfold inside_sc <;>
    simp only [vcomp] <;> linarith

theorem fan_length (ring : List vertex) (h : 1 ≤ ring.length) :
    (fanTriangles ring).length = ring.length - 2 := by
  cases ring with
  | nil => simp at h
  | cons r0 rest =>
    simp only [fanTriangles, List.length_map, List.length_zip, List.length_tail,
      List.length_cons]
    omega

/-- C5: on the clipping path (at least one vertex visible, at least one
not), triangle_clip returns a ring of at least 3 vertices, so the
assert on the clipped size never fires, and the fan anchored at ring
vertex 0 consists of exactly ring.size - 2 sub-triangles. -/
theorem C5_clip_ring_and_fan (v0 v1 v2 : vertex)
    (hvis : ∃ u ∈ [v0, v1, v2], visible_point u.position)
    (_hinv : ∃ u ∈ [v0, v1, v2], ¬visible_point u.position) :
    3 ≤ (triangle_clip v0 v1 v2).length ∧
    (fanTriangles (triangle_clip v0 v1 v2)).length =
      (triangle_clip v0 v1 v2).length - 2 := by
  obtain ⟨v, hv, hvvis⟩ := hvis
  obtain ⟨⟨hx1, hx2⟩, ⟨hy1, hy2⟩, ⟨hz1, hz2⟩⟩ := visible_inside_all v hvvis
  simp only [triangle_clip]
  obtain ⟨hl0, hm0⟩ := tcc_three [v0, v1, v2] 0 (by simp) v hv hx1 hx2
  have hne0 : triangle_clip_component [v0, v1, v2] 0 ≠ [] := by
    intro h; rw [h] at hl0; simp at hl0
  rw [if_neg hne0]
  obtain ⟨hl1, hm1⟩ := tcc_three _ 1 hl0 v hm0 hy1 hy2
  have hne1 : triangle_clip_component (triangle_clip_component [v0, v1, v2] 0) 1 ≠ [] := by
    intro h; rw [h] at hl1; simp at hl1
  rw [if_neg hne1]
  obtain ⟨hl2, hm2⟩ := tcc_three _ 2 hl1 v hm1 hz1 hz2
  exact ⟨hl2, fan_length _ (by omega)⟩

theorem C5_witness :
    ((∃ u ∈ [(⟨⟨0, 0, 0, 1⟩, []⟩ : vertex), ⟨⟨2, 0, 0, 1⟩, []⟩, ⟨⟨0, 2, 0, 1⟩, []⟩],
        visible_point u.position) ∧
      (∃ u ∈ [(⟨⟨0, 0, 0, 1⟩, []⟩ : vertex), ⟨⟨2, 0, 0, 1⟩, []⟩, ⟨⟨0, 2, 0, 1⟩, []⟩],
        ¬visible_point u.position)) ∧
    3 ≤ (triangle_clip ⟨⟨0, 0, 0, 1⟩, []⟩ ⟨⟨2, 0, 0, 1⟩, []⟩ ⟨⟨0, 2, 0, 1⟩, []⟩).length ∧
    (fanTriangles (triangle_clip ⟨⟨0, 0, 0, 1⟩, []⟩ ⟨⟨2, 0, 0, 1⟩, []⟩ ⟨⟨0, 2, 0, 1⟩, []⟩)).length =
      (triangle_clip ⟨⟨0, 0, 0, 1⟩, []⟩ ⟨⟨2, 0, 0, 1⟩, []⟩ ⟨⟨0, 2, 0, 1⟩, []⟩).length - 2 :=
  ⟨⟨by decide, by decide⟩,
   C5_clip_ring_and_fan ⟨⟨0, 0, 0, 1⟩, []⟩ ⟨⟨2, 0, 0, 1⟩, []⟩ ⟨⟨0, 2, 0, 1⟩, []⟩
     (by decide) (by decide)⟩

/-! ## Arithmetic lemmas for the bounds invariant -/

theorem between_mem (lo hi a b t : ℚ) (ha1 : lo ≤ a) (ha2 : a ≤ hi)
    (hb1 : lo ≤ b) (hb2 : b ≤ hi) (ht0 : 0 ≤ t) (ht1 : t ≤ 1) :
    lo ≤ a + t * (b - a) ∧ a + t * (b - a) ≤ hi := by
  constructor <;> nlinarith

theorem ratRound_mem (m : ℤ) (q : ℚ) (h0 : 0 ≤ q) (hm : q ≤ (m : ℚ)) :
    0 ≤ ratRound q ∧ ratRound q ≤ m := by
  unfold ratRound
  rw [if_pos h0]
  refine ⟨Int.floor_nonneg.mpr (by linarith), ?_⟩
  have h2 : ⌊q + 1 / 2⌋ < m + 1 := Int.floor_lt.mpr (by push_cast; linarith)
  omega

theorem ratTrunc_mem (m : ℤ) (q : ℚ) (h0 : 0 ≤ q) (hm : q ≤ (m : ℚ)) :
    0 ≤ ratTrunc q ∧ ratTrunc q ≤ m := by
  unfold ratTrunc
  rw [if_pos h0]
  refine ⟨Int.floor_nonneg.mpr h0, ?_⟩
  have h2 : ⌊q⌋ < m + 1 := Int.floor_lt.mpr (by push_cast; linarith)
  omega

theorem ratTrunc_nonneg (q : ℚ) (h : 0 ≤ q) : 0 ≤ ratTrunc q := by
  unfold ratTrunc
  rw [if_pos h]
  exact Int.floor_nonneg.mpr h

theorem init_steps_nonneg (l : line3d) (pol : calc_steps_based_on) :
    0 ≤ (line3d_stepper.init l pol).steps := by
  unfold line3d_stepper.init
  cases pol <;> dsimp only <;> split_ifs with h <;>
    first
      | exact le_refl 0
      | exact ratTrunc_nonneg _ (le_max_iff.mpr (Or.inl (abs_nonneg _)))
      | exact ratTrunc_nonneg _ (abs_nonneg _)

theorem roundXY_box (W H : ℤ) (v : vertex) (h : vBox W H v) :
    vBox W H (roundXY v) := by
  obtain ⟨h1, h2, h3, h4⟩ := h
  have hx := ratRound_mem (W - 1) v.position.x h1 (by push_cast; linarith)
  have hy := ratRound_mem (H - 1) v.position.y h3 (by push_cast; linarith)
  unfold vBox roundXY
  dsimp only
  refine ⟨?_, ?_, ?_, ?_⟩
  · exact_mod_cast hx.1
  · have h5 : ((ratRound v.position.x : ℤ) : ℚ) ≤ ((W - 1 : ℤ) : ℚ) := by
      exact_mod_cast hx.2
    push_cast at h5
    linarith
  · exact_mod_cast hy.1
  · have h5 : ((ratRound v.position.y : ℤ) : ℚ) ≤ ((H - 1 : ℤ) : ℚ) := by
      exact_mod_cast hy.2
    push_cast at h5
    linarith

theorem seg_mem (lo hi a b : ℚ) (n : ℤ) (hn : 0 < n) (k : ℤ) (hk0 : 0 ≤ k)
    (hkn : k ≤ n) (ha1 : lo ≤ a) (ha2 : a ≤ hi) (hb1 : lo ≤ b) (hb2 : b ≤ hi) :
    lo ≤ a + k * ((b - a) / n) ∧ a + k * ((b - a) / n) ≤ hi := by
  have hn' : (0 : ℚ) < (n : ℚ) := by exact_mod_cast hn
  have heq : a + (k : ℚ) * ((b - a) / (n : ℚ)) =
      a + ((k : ℚ) / (n : ℚ)) * (b - a) := by ring
  rw [heq]
  refine between_mem lo hi a b _ ha1 ha2 hb1 hb2 ?_ ?_
  · exact div_nonneg (by exact_mod_cast hk0) (le_of_lt hn')
  · rw [div_le_one hn']
    exact_mod_cast hkn

theorem stBox_init_core (W H : ℤ) (s e : vertex) (n : ℤ) (hn : 0 ≤ n)
    (ia : List attrData) (hs : vBox W H s) (he : vBox W H e) :
    stBox W H
      (if n = 0 then ⟨s, zeroVertex, 0, 0⟩
       else ⟨s, ⟨vdiv (vsub e.position s.position) (n : ℚ), ia⟩, n, 0⟩) := by
  split_ifs with h
  · refine ⟨le_refl 0, ?_⟩
    intro k hk0 hk1
    dsimp only at hk1
    have hk : k = 0 := le_antisymm (by omega) hk0
    subst hk
    push_cast
    simp only [zero_mul, add_zero]
    exact ⟨hs.1, hs.2.1, hs.2.2.1, hs.2.2.2⟩
  · have hn' : 0 < n := lt_of_le_of_ne hn (Ne.symm h)
    refine ⟨hn, ?_⟩
    intro k hk0 hk1
    dsimp only at hk1
    have hx := seg_mem 0 ((W : ℚ) - 1) s.position.x e.position.x n hn' k hk0
      (by omega) hs.1 hs.2.1 he.1 he.2.1
    have hy := seg_mem 0 ((H : ℚ) - 1) s.position.y e.position.y n hn' k hk0
      (by omega) hs.2.2.1 hs.2.2.2 he.2.2.1 he.2.2.2
    dsimp only [vdiv, vsub]
    exact ⟨hx.1, hx.2, hy.1, hy.2⟩

theorem stBox_init (W H : ℤ) (l : line3d) (pol : calc_steps_based_on)
    (hs : vBox W H l.start) (he : vBox W H l.stop) :
    stBox W H (line3d_stepper.init l pol) := by
  have hs' := roundXY_box W H l.start hs
  have he' := roundXY_box W H l.stop he
  unfold line3d_stepper.init
  cases pol <;> dsimp only <;>
    exact stBox_init_core W H _ _ _
      (ratTrunc_nonneg _ (by positivity)) _ hs' he'

theorem stBox_step (W H : ℤ) (st : line3d_stepper) (h : stBox W H st) :
    stBox W H st.step.2 := by
  obtain ⟨hle, hb⟩ := h
  unfold line3d_stepper.step
  split_ifs with hi
  · exact ⟨hle, hb⟩
  · refine ⟨by dsimp only; omega, ?_⟩
    intro k hk0 hk1
    dsimp only [vadd] at hk1 ⊢
    have h2 := hb (k + 1) (by omega) (by omega)
    push_cast at h2 ⊢
    obtain ⟨p1, p2, p3, p4⟩ := h2
    refine ⟨by nlinarith, by nlinarith, by nlinarith, by nlinarith⟩

theorem stBox_current (W H : ℤ) (st : line3d_stepper) (h : stBox W H st) :
    vBox W H st.current := by
  obtain ⟨hle, hb⟩ := h
  have h0 := hb 0 le_rfl (by omega)
  push_cast at h0
  simpa using h0

theorem process_pixel_trace (shader : vertex → Option byte3) (v : vertex)
    (s : render_state) :
    ∀ a ∈ (process_pixel shader v s).trace,
      a ∈ s.trace ∨
      a = access.depthAt (ratTrunc v.position.x) (ratTrunc v.position.y) ∨
      a = access.colorAt (ratTrunc v.position.x) (ratTrunc v.position.y) := by
  obtain ⟨sc, sd, str⟩ := s
  intro a ha
  unfold process_pixel color_part at ha
  cases sd with
  | none =>
    cases sc with
    | none => exact Or.inl ha
    | some cb =>
      rcases hsh : shader v with _ | col <;> rw [hsh] at ha <;>
        dsimp only at ha <;> rcases List.mem_cons.mp ha with h | h <;>
        first
          | exact Or.inr (Or.inr h)
          | exact Or.inl h
  | some db =>
    dsimp only at ha
    split_ifs at ha with hz
    · cases sc with
      | none =>
        rcases List.mem_cons.mp ha with h | h
        · exact Or.inr (Or.inl h)
        · exact Or.inl h
      | some cb =>
        rcases hsh : shader v with _ | col <;> rw [hsh] at ha <;>
          dsimp only at ha
        · rcases List.mem_cons.mp ha with h | h
          · exact Or.inr (Or.inr h)
          · rcases List.mem_cons.mp h with h2 | h2
            · exact Or.inr (Or.inl h2)
            · exact Or.inl h2
        · rcases List.mem_cons.mp ha with h | h
          · exact Or.inr (Or.inr h)
          · rcases List.mem_cons.mp h with h2 | h2
            · exact Or.inr (Or.inl h2)
            · exact Or.inl h2
    · rcases List.mem_cons.mp ha with h | h
      · exact Or.inr (Or.inl h)
      · exact Or.inl h

theorem process_pixel_shape (shader : vertex → Option byte3) (v : vertex)
    (s : render_state) : bufShape (process_pixel shader v s) = bufShape s := by
  obtain ⟨sc, sd, str⟩ := s
  unfold process_pixel color_part bufShape
  cases sd with
  | none =>
    cases sc with
    | none => rfl
    | some cb => rcases shader v with _ | col <;> rfl
  | some db =>
    dsimp only
    split_ifs with hz
    · cases sc with
      | none => rfl
      | some cb => rcases shader v with _ | col <;> rfl
    · rfl

theorem ndc_bound (x w : ℚ) (h : |x| ≤ w) : -1 ≤ x / w ∧ x / w ≤ 1 := by
  have hw0 : 0 ≤ w := le_trans (abs_nonneg x) h
  rcases eq_or_lt_of_le hw0 with heq | hpos
  · have hx0 : x = 0 := abs_eq_zero.mp (le_antisymm (heq ▸ h) (abs_nonneg x))
    rw [hx0, zero_div]
    norm_num
  · have hb := abs_le.mp h
    constructor
    · rw [le_div_iff₀ hpos]
      linarith [hb.1]
    · rw [div_le_one hpos]
      exact hb.2

theorem vBox_trunc (W H : ℤ) (v : vertex) (h : vBox W H v) :
    (0 ≤ ratTrunc v.position.x ∧ ratTrunc v.position.x < W) ∧
    (0 ≤ ratTrunc v.position.y ∧ ratTrunc v.position.y < H) := by
  obtain ⟨h1, h2, h3, h4⟩ := h
  have hx := ratTrunc_mem (W - 1) v.position.x h1 (by push_cast; linarith)
  have hy := ratTrunc_mem (H - 1) v.position.y h3 (by push_cast; linarith)
  exact ⟨⟨hx.1, by omega⟩, ⟨hy.1, by omega⟩⟩

theorem viewport_wdiv_box (W H : ℤ) (v : vertex) (h : inXYW v) :
    vBox W H (viewportV W H (wdivV v)) ∨ (W < 1 ∨ H < 1) := by
  by_cases hW : 1 ≤ W
  · by_cases hH : 1 ≤ H
    · left
      obtain ⟨hx, hy⟩ := h
      have hnx := ndc_bound v.position.x v.position.w hx
      have hny := ndc_bound v.position.y v.position.w hy
      have hW1 : (0 : ℚ) ≤ (W : ℚ) - 1 := by
        have : (1 : ℚ) ≤ (W : ℚ) := by exact_mod_cast hW
        linarith
      have hH1 : (0 : ℚ) ≤ (H : ℚ) - 1 := by
        have : (1 : ℚ) ≤ (H : ℚ) := by exact_mod_cast hH
        linarith
      have hqx1 : 0 ≤ (v.position.x / v.position.w + 1) / 2 * ((W : ℚ) - 1) := by
        nlinarith [hnx.1]
      have hqx2 : (v.position.x / v.position.w + 1) / 2 * ((W : ℚ) - 1) ≤ (W : ℚ) - 1 := by
        nlinarith [hnx.2]
      have hqy1 : 0 ≤ (v.position.y / v.position.w + 1) / 2 * ((H : ℚ) - 1) := by
        nlinarith [hny.1]
      have hqy2 : (v.position.y / v.position.w + 1) / 2 * ((H : ℚ) - 1) ≤ (H : ℚ) - 1 := by
        nlinarith [hny.2]
      have hrx := ratRound_mem (W - 1) _ hqx1 (by push_cast; linarith)
      have hry := ratRound_mem (H - 1) _ hqy1 (by push_cast; linarith)
      unfold viewportV wdivV vBox
      dsimp only
      refine ⟨by exact_mod_cast hrx.1, ?_, by exact_mod_cast hry.1, ?_⟩
      · have h5 : ((ratRound ((v.position.x / v.position.w + 1) / 2 * ((W : ℚ) - 1)) : ℤ) : ℚ) ≤
            ((W - 1 : ℤ) : ℚ) := by exact_mod_cast hrx.2
        push_cast at h5
        linarith
      · have h5 : ((ratRound ((v.position.y / v.position.w + 1) / 2 * ((H : ℚ) - 1)) : ℤ) : ℚ) ≤
            ((H - 1 : ℤ) : ℚ) := by exact_mod_cast hry.2
        push_cast at h5
        linarith
    · right; right; omega
  · right; left; omega

theorem lerp_box (W H : ℤ) (a c : vertex) (t : ℚ) (ha : vBox W H a)
    (hc : vBox W H c) (ht0 : 0 ≤ t) (ht1 : t ≤ 1) :
    vBox W H (vertex.lerp a c t) := by
  obtain ⟨a1, a2, a3, a4⟩ := ha
  obtain ⟨c1, c2, c3, c4⟩ := hc
  have hx := between_mem 0 ((W : ℚ) - 1) a.position.x c.position.x t a1 a2 c1 c2 ht0 ht1
  have hy := between_mem 0 ((H : ℚ) - 1) a.position.y c.position.y t a3 a4 c3 c4 ht0 ht1
  unfold vertex.lerp vec4_lerp stdLerp vBox
  dsimp only
  exact ⟨hx.1, hx.2, hy.1, hy.2⟩

theorem sortByY_spec (a b c : vertex) :
    ((sortByY a b c).1 = a ∨ (sortByY a b c).1 = b ∨ (sortByY a b c).1 = c) ∧
    ((sortByY a b c).2.1 = a ∨ (sortByY a b c).2.1 = b ∨ (sortByY a b c).2.1 = c) ∧
    ((sortByY a b c).2.2 = a ∨ (sortByY a b c).2.2 = b ∨ (sortByY a b c).2.2 = c) ∧
    (sortByY a b c).1.position.y ≤ (sortByY a b c).2.1.position.y ∧
    (sortByY a b c).2.1.position.y ≤ (sortByY a b c).2.2.position.y := by
  unfold sortByY
  by_cases h1 : a.position.y > b.position.y
  · rw [if_pos h1]
    dsimp only
    by_cases h2 : b.position.y > c.position.y
    · rw [if_pos h2]
      dsimp only
      rw [if_pos h1]
      dsimp only
      exact ⟨Or.inr (Or.inr rfl), Or.inr (Or.inl rfl), Or.inl rfl,
        by linarith, by linarith⟩
    · rw [if_neg h2]
      dsimp only
      by_cases h3 : a.position.y > c.position.y
      · rw [if_pos h3]
        dsimp only
        exact ⟨Or.inr (Or.inl rfl), Or.inr (Or.inr rfl), Or.inl rfl,
          by linarith, by linarith⟩
      · rw [if_neg h3]
        dsimp only
        exact ⟨Or.inr (Or.inl rfl), Or.inl rfl, Or.inr (Or.inr rfl),
          by linarith, by linarith⟩
  · rw [if_neg h1]
    dsimp only
    by_cases h2 : a.position.y > c.position.y
    · rw [if_pos h2]
      dsimp only
      by_cases h3 : b.position.y > a.position.y
      · rw [if_pos h3]
        dsimp only
        exact ⟨Or.inr (Or.inr rfl), Or.inl rfl, Or.inr (Or.inl rfl),
          by linarith, by linarith⟩
      · rw [if_neg h3]
        dsimp only
        exact ⟨Or.inr (Or.inr rfl), Or.inr (Or.inl rfl), Or.inl rfl,
          by linarith, by linarith⟩
    · rw [if_neg h2]
      dsimp only
      by_cases h3 : b.position.y > c.position.y
      · rw [if_pos h3]
        dsimp only
        exact ⟨Or.inl rfl, Or.inr (Or.inr rfl), Or.inr (Or.inl rfl),
          by linarith, by linarith⟩
      · rw [if_neg h3]
        dsimp only
        exact ⟨Or.inl rfl, Or.inr (Or.inl rfl), Or.inr (Or.inr rfl),
          by linarith, by linarith⟩

theorem pixel_loop_trace (shader : vertex → Option byte3) (W H : ℤ) :
    ∀ (fuel : ℕ) (lx : line3d_stepper) (s : render_state), stBox W H lx →
      ∀ a ∈ (pixel_loop shader fuel lx s).trace, a ∈ s.trace ∨ access_in W H a := by
  intro fuel
  induction fuel with
  | zero => intro lx s _ a ha; exact Or.inl ha
  | succ n ih =>
    intro lx s hbox a ha
    rw [show pixel_loop shader (n + 1) lx s =
        (if lx.step.1 = true then
          pixel_loop shader n lx.step.2 (process_pixel shader lx.current s)
        else process_pixel shader lx.current s) from rfl] at ha
    have hcur := stBox_current W H lx hbox
    have htr := vBox_trunc W H lx.current hcur
    have hkey : ∀ x ∈ (process_pixel shader lx.current s).trace,
        x ∈ s.trace ∨ access_in W H x := by
      intro x hx
      rcases process_pixel_trace shader lx.current s x hx with h | h | h
      · exact Or.inl h
      · subst h
        exact Or.inr ⟨htr.1.1, htr.1.2, htr.2.1, htr.2.2⟩
      · subst h
        exact Or.inr ⟨htr.1.1, htr.1.2, htr.2.1, htr.2.2⟩
    split_ifs at ha with hr
    · rcases ih lx.step.2 _ (stBox_step W H lx hbox) a ha with h | h
      · exact hkey a h
      · exact Or.inr h
    · exact hkey a ha

theorem scan_loop_trace (shader : vertex → Option byte3) (W H : ℤ) :
    ∀ (fuel : ℕ) (la lb : line3d_stepper) (s : render_state),
      stBox W H la → stBox W H lb →
      ∀ a ∈ (scan_loop shader fuel la lb s).trace, a ∈ s.trace ∨ access_in W H a := by
  intro fuel
  induction fuel with
  | zero => intro la lb s _ _ a ha; exact Or.inl ha
  | succ n ih =>
    intro la lb s hba hbb a ha
    rw [show scan_loop shader (n + 1) la lb s =
        (if la.step.1 = true then
          (if lb.step.1 = true then
            scan_loop shader n la.step.2 lb.step.2
              (pixel_loop shader
                ((line3d_stepper.init ⟨la.current, lb.current⟩ .x_difference).steps.toNat + 1)
                (line3d_stepper.init ⟨la.current, lb.current⟩ .x_difference) s)
          else
            pixel_loop shader
              ((line3d_stepper.init ⟨la.current, lb.current⟩ .x_difference).steps.toNat + 1)
              (line3d_stepper.init ⟨la.current, lb.current⟩ .x_difference) s)
        else
          pixel_loop shader
            ((line3d_stepper.init ⟨la.current, lb.current⟩ .x_difference).steps.toNat + 1)
            (line3d_stepper.init ⟨la.current, lb.current⟩ .x_difference) s) from rfl] at ha
    have hlx : stBox W H (line3d_stepper.init ⟨la.current, lb.current⟩ .x_difference) :=
      stBox_init W H ⟨la.current, lb.current⟩ _ (stBox_current W H la hba)
        (stBox_current W H lb hbb)
    split_ifs at ha with h1 h2
    · rcases ih la.step.2 lb.step.2 _ (stBox_step W H la hba) (stBox_step W H lb hbb)
        a ha with h | h
      · exact pixel_loop_trace shader W H _ _ s hlx a h
      · exact Or.inr h
    · exact pixel_loop_trace shader W H _ _ s hlx a ha
    · exact pixel_loop_trace shader W H _ _ s hlx a ha

theorem render_from_lines_trace (shader : vertex → Option byte3) (W H : ℤ)
    (s : render_state) (a b : line3d)
    (ha1 : vBox W H a.start) (ha2 : vBox W H a.stop)
    (hb1 : vBox W H b.start) (hb2 : vBox W H b.stop) :
    ∀ x ∈ (render_from_lines shader s a b).trace, x ∈ s.trace ∨ access_in W H x := by
  unfold render_from_lines
  by_cases hsw : a.start.position.x > b.start.position.x
  · rw [if_pos hsw]
    dsimp only
    exact scan_loop_trace shader W H _ _ _ _
      (stBox_init W H b _ hb1 hb2) (stBox_init W H a _ ha1 ha2)
  · rw [if_neg hsw]
    dsimp only
    exact scan_loop_trace shader W H _ _ _ _
      (stBox_init W H a _ ha1 ha2) (stBox_init W H b _ hb1 hb2)

theorem fill_core_trace (shader : vertex → Option byte3) (W H : ℤ)
    (s : render_state) (A B C : vertex)
    (hA : vBox W H A) (hB : vBox W H B) (hC : vBox W H C)
    (hsAB : A.position.y ≤ B.position.y) (hsBC : B.position.y ≤ C.position.y) :
    ∀ a ∈ (if A.position.y = B.position.y then
        render_from_lines shader s ⟨A, C⟩ ⟨B, C⟩
      else if B.position.y = C.position.y then
        render_from_lines shader s ⟨A, B⟩ ⟨A, C⟩
      else
        render_from_lines shader
          (render_from_lines shader s ⟨A, B⟩
            ⟨A, vertex.lerp A C
              ((B.position.y - A.position.y) / (C.position.y - A.position.y))⟩)
          ⟨B, C⟩
          ⟨vertex.lerp A C
            ((B.position.y - A.position.y) / (C.position.y - A.position.y)), C⟩).trace,
      a ∈ s.trace ∨ access_in W H a := by
  intro a ha
  split_ifs at ha with hf1 hf2
  · exact render_from_lines_trace shader W H s _ _ hA hC hB hC a ha
  · exact render_from_lines_trace shader W H s _ _ hA hB hA hC a ha
  · have hstrict1 : A.position.y < B.position.y := lt_of_le_of_ne hsAB hf1
    have hstrict2 : B.position.y < C.position.y := lt_of_le_of_ne hsBC hf2
    have ht0 : 0 ≤ (B.position.y - A.position.y) / (C.position.y - A.position.y) :=
      div_nonneg (by linarith) (by linarith)
    have ht1 : (B.position.y - A.position.y) / (C.position.y - A.position.y) ≤ 1 := by
      rw [div_le_one (by linarith)]
      linarith
    have hv3 := lerp_box W H A C _ hA hC ht0 ht1
    rcases render_from_lines_trace shader W H _ _ _ hB hC hv3 hC a ha with h | h
    · rcases render_from_lines_trace shader W H s _ _ hA hB hA hv3 a h with h2 | h2
      · exact Or.inl h2
      · exact Or.inr h2
    · exact Or.inr h

theorem fill_triangle_trace (shader : vertex → Option byte3) (s : render_state)
    (v0 v1 v2 : vertex) (h0 : inXYW v0) (h1 : inXYW v1) (h2 : inXYW v2)
    (hW : 1 ≤ fbW s) (hH : 1 ≤ fbH s) :
    ∀ a ∈ (fill_triangle shader s v0 v1 v2).trace,
      a ∈ s.trace ∨ access_in (fbW s) (fbH s) a := by
  set W := fbW s with hWdef
  set H := fbH s with hHdef
  set u0 := viewportV W H (wdivV v0) with hu0def
  set u1 := viewportV W H (wdivV v1) with hu1def
  set u2 := viewportV W H (wdivV v2) with hu2def
  have hu0 : vBox W H u0 := by
    rcases viewport_wdiv_box W H v0 h0 with h | h | h
    · exact h
    · omega
    · omega
  have hu1 : vBox W H u1 := by
    rcases viewport_wdiv_box W H v1 h1 with h | h | h
    · exact h
    · omega
    · omega
  have hu2 : vBox W H u2 := by
    rcases viewport_wdiv_box W H v2 h2 with h | h | h
    · exact h
    · omega
    · omega
  obtain ⟨hmA, hmB, hmC, hsAB, hsBC⟩ := sortByY_spec u0 u1 u2
  have hA : vBox W H (sortByY u0 u1 u2).1 := by
    rcases hmA with h | h | h <;> rw [h] <;> assumption
  have hB : vBox W H (sortByY u0 u1 u2).2.1 := by
    rcases hmB with h | h | h <;> rw [h] <;> assumption
  have hC : vBox W H (sortByY u0 u1 u2).2.2 := by
    rcases hmC with h | h | h <;> rw [h] <;> assumption
  intro a ha
  unfold fill_triangle at ha
  dsimp only at ha
  exact fill_core_trace shader W H s _ _ _ hA hB hC hsAB hsBC a ha

theorem vcomp_lerp (a b : vec4f) (t : ℚ) (ci : ℕ) :
    vcomp (vec4_lerp a b t) ci = stdLerp (vcomp a ci) (vcomp b ci) t := by
  rcases ci with _ | _ | _ | n <;> rfl

theorem inside_sc_lerp (sign : ℚ) (ci : ℕ) (a b : vertex) (t : ℚ)
    (ht0 : 0 ≤ t) (ht1 : t ≤ 1) (ha : inside_sc sign ci a)
    (hb : inside_sc sign ci b) : inside_sc sign ci (vertex.lerp a b t) := by
  unfold inside_sc at *
  show sign * vcomp (vec4_lerp a.position b.position t) ci ≤
    stdLerp a.position.w b.position.w t
  rw [vcomp_lerp]
  unfold stdLerp
  nlinarith [mul_le_mul_of_nonneg_left hb ht0,
    mul_le_mul_of_nonneg_left ha (by linarith : (0 : ℚ) ≤ 1 - t)]

theorem clip_t_spec (sign : ℚ) (ci : ℕ) (p c : vertex)
    (hne : ¬(inside_sc sign ci c ↔ inside_sc sign ci p)) :
    (0 ≤ clip_t sign ci p c ∧ clip_t sign ci p c ≤ 1) ∧
    inside_sc sign ci (vertex.lerp p c (clip_t sign ci p c)) := by
  have hp' : inside_sc sign ci p ↔
      0 ≤ p.position.w - sign * vcomp p.position ci := by
    unfold inside_sc; constructor <;> intro h <;> linarith
  have hc' : inside_sc sign ci c ↔
      0 ≤ c.position.w - sign * vcomp c.position ci := by
    unfold inside_sc; constructor <;> intro h <;> linarith
  set dp := p.position.w - sign * vcomp p.position ci with hdp
  set dc := c.position.w - sign * vcomp c.position ci with hdc
  have htval : clip_t sign ci p c = dp / (dp - dc) := rfl
  have main : ∀ hden' : dp - dc ≠ 0,
      inside_sc sign ci (vertex.lerp p c (clip_t sign ci p c)) := by
    intro hden'
    have hval : dp + clip_t sign ci p c * (dc - dp) = 0 := by
      rw [htval]
      field_simp
      ring
    unfold inside_sc
    show sign * vcomp (vec4_lerp p.position c.position (clip_t sign ci p c)) ci ≤
      stdLerp p.position.w c.position.w (clip_t sign ci p c)
    rw [vcomp_lerp]
    have hkey : stdLerp p.position.w c.position.w (clip_t sign ci p c) -
        sign * stdLerp (vcomp p.position ci) (vcomp c.position ci)
          (clip_t sign ci p c) =
        dp + clip_t sign ci p c * (dc - dp) := by
      simp only [stdLerp]
      rw [hdp, hdc]
      ring
    linarith [hkey, hval]
  by_cases hcin : inside_sc sign ci c
  · have hpin : ¬inside_sc sign ci p := by tauto
    have hdc0 : 0 ≤ dc := hc'.mp hcin
    have hdp0 : dp < 0 := by
      by_contra hcon
      exact hpin (hp'.mpr (by linarith))
    have hden : dp - dc < 0 := by linarith
    have hden' : dp - dc ≠ 0 := ne_of_lt hden
    have h0 : 0 ≤ clip_t sign ci p c := by
      rw [htval]
      exact div_nonneg_iff.mpr (Or.inr ⟨le_of_lt hdp0, le_of_lt hden⟩)
    have h1 : clip_t sign ci p c ≤ 1 := by
      rw [htval]
      have key : (1 : ℚ) - dp / (dp - dc) = (-dc) / (dp - dc) := by
        field_simp
      have h2 : 0 ≤ (-dc) / (dp - dc) :=
        div_nonneg_iff.mpr (Or.inr ⟨by linarith, le_of_lt hden⟩)
      linarith
    exact ⟨⟨h0, h1⟩, main hden'⟩
  · have hpin : inside_sc sign ci p := by tauto
    have hdp0 : 0 ≤ dp := hp'.mp hpin
    have hdc0 : dc < 0 := by
      by_contra hcon
      exact hcin (hc'.mpr (by linarith))
    have hden : 0 < dp - dc := by linarith
    have hden' : dp - dc ≠ 0 := ne_of_gt hden
    have h0 : 0 ≤ clip_t sign ci p c := by
      rw [htval]
      exact div_nonneg hdp0 (le_of_lt hden)
    have h1 : clip_t sign ci p c ≤ 1 := by
      rw [htval, div_le_one hden]
      linarith
    exact ⟨⟨h0, h1⟩, main hden'⟩

theorem clipGo_inv (sign : ℚ) (ci : ℕ) (P : vertex → Prop)
    (hP : ∀ a b t, 0 ≤ t → t ≤ 1 → P a → P b → P (vertex.lerp a b t)) :
    ∀ (l : List vertex) (p : vertex), (∀ u ∈ l, P u) → P p →
      ∀ u' ∈ clipGo sign ci p l, P u' ∧ inside_sc sign ci u' := by
  intro l
  induction l with
  | nil => intro p _ _ u' hu'; simp [clipGo] at hu'
  | cons c rest ih =>
    intro p hl hp u' hu'
    have hc : P c := hl c (by simp)
    rcases List.mem_append.mp hu' with h | h
    · unfold clipEmit at h
      rcases List.mem_append.mp h with h2 | h2
      · by_cases hne : inside_sc sign ci c ↔ inside_sc sign ci p
        · rw [if_neg (by tauto)] at h2
          simp at h2
        · rw [if_pos hne] at h2
          have hspec := clip_t_spec sign ci p c hne
          rcases List.mem_singleton.mp h2 with rfl
          exact ⟨hP p c _ hspec.1.1 hspec.1.2 hp hc, hspec.2⟩
      · by_cases hcin : inside_sc sign ci c
        · rw [if_pos hcin] at h2
          rcases List.mem_singleton.mp h2 with rfl
          exact ⟨hc, hcin⟩
        · rw [if_neg hcin] at h2
          simp at h2
    · exact ih c (fun u hu => hl u (by simp [hu])) hc u' h

theorem clipHalf_inv (sign : ℚ) (ci : ℕ) (P : vertex → Prop)
    (hP : ∀ a b t, 0 ≤ t → t ≤ 1 → P a → P b → P (vertex.lerp a b t))
    (ring : List vertex) (hring : ∀ u ∈ ring, P u) :
    ∀ u ∈ clipHalf sign ci ring, P u ∧ inside_sc sign ci u := by
  cases ring with
  | nil => intro u hu; simp [clipHalf] at hu
  | cons v vs =>
    exact clipGo_inv sign ci P hP (v :: vs) _ hring
      (hring _ (List.getLast_mem (List.cons_ne_nil v vs)))

theorem tcc_inv (ci : ℕ) (P : vertex → Prop)
    (hP : ∀ a b t, 0 ≤ t → t ≤ 1 → P a → P b → P (vertex.lerp a b t))
    (ring : List vertex) (hring : ∀ u ∈ ring, P u) :
    ∀ u ∈ triangle_clip_component ring ci,
      P u ∧ inside_sc 1 ci u ∧ inside_sc (-1) ci u := by
  intro u hu
  simp only [triangle_clip_component] at hu
  split_ifs at hu with he
  · rw [he] at hu
    simp at hu
  · have hQ : ∀ a b t, 0 ≤ t → t ≤ 1 →
        (P a ∧ inside_sc 1 ci a) → (P b ∧ inside_sc 1 ci b) →
        (P (vertex.lerp a b t) ∧ inside_sc 1 ci (vertex.lerp a b t)) := by
      intro a b t ht0 ht1 ha hb
      exact ⟨hP a b t ht0 ht1 ha.1 hb.1, inside_sc_lerp 1 ci a b t ht0 ht1 ha.2 hb.2⟩
    have h2 := clipHalf_inv (-1) ci (fun u => P u ∧ inside_sc 1 ci u) hQ
      (clipHalf 1 ci ring)
      (fun u hu => clipHalf_inv 1 ci P hP ring hring u hu) u hu
    exact ⟨h2.1.1, h2.1.2, h2.2⟩

theorem triangle_clip_sat (v0 v1 v2 : vertex) :
    ∀ u ∈ triangle_clip v0 v1 v2,
      (inside_sc 1 0 u ∧ inside_sc (-1) 0 u) ∧
      (inside_sc 1 1 u ∧ inside_sc (-1) 1 u) := by
  intro u hu
  simp only [triangle_clip] at hu
  split_ifs at hu with h1 h2
  · rw [h1] at hu; simp at hu
  · rw [h2] at hu; simp at hu
  · have hPx : ∀ a b t, (0:ℚ) ≤ t → t ≤ 1 →
        (inside_sc 1 0 a ∧ inside_sc (-1) 0 a) →
        (inside_sc 1 0 b ∧ inside_sc (-1) 0 b) →
        (inside_sc 1 0 (vertex.lerp a b t) ∧ inside_sc (-1) 0 (vertex.lerp a b t)) := by
      intro a b t ht0 ht1 ha hb
      exact ⟨inside_sc_lerp 1 0 a b t ht0 ht1 ha.1 hb.1,
             inside_sc_lerp (-1) 0 a b t ht0 ht1 ha.2 hb.2⟩
    have hPxy : ∀ a b t, (0:ℚ) ≤ t → t ≤ 1 →
        ((inside_sc 1 0 a ∧ inside_sc (-1) 0 a) ∧
         (inside_sc 1 1 a ∧ inside_sc (-1) 1 a)) →
        ((inside_sc 1 0 b ∧ inside_sc (-1) 0 b) ∧
         (inside_sc 1 1 b ∧ inside_sc (-1) 1 b)) →
        ((inside_sc 1 0 (vertex.lerp a b t) ∧ inside_sc (-1) 0 (vertex.lerp a b t)) ∧
         (inside_sc 1 1 (vertex.lerp a b t) ∧ inside_sc (-1) 1 (vertex.lerp a b t))) := by
      intro a b t ht0 ht1 ha hb
      exact ⟨hPx a b t ht0 ht1 ha.1 hb.1,
             ⟨inside_sc_lerp 1 1 a b t ht0 ht1 ha.2.1 hb.2.1,
              inside_sc_lerp (-1) 1 a b t ht0 ht1 ha.2.2 hb.2.2⟩⟩
    have hx := tcc_inv 0 (fun _ => True) (fun _ _ _ _ _ _ _ => trivial)
      [v0, v1, v2] (fun _ _ => trivial)
    have hy := tcc_inv 1 (fun u => inside_sc 1 0 u ∧ inside_sc (-1) 0 u) hPx
      (triangle_clip_component [v0, v1, v2] 0)
      (fun u hu => (hx u hu).2)
    have hz := tcc_inv 2
      (fun u => (inside_sc 1 0 u ∧ inside_sc (-1) 0 u) ∧
                (inside_sc 1 1 u ∧ inside_sc (-1) 1 u)) hPxy
      (triangle_clip_component (triangle_clip_component [v0, v1, v2] 0) 1)
      (fun u hu => ⟨(hy u hu).1, (hy u hu).2⟩) u hu
    exact hz.1

theorem sat_inXYW (u : vertex)
    (h : (inside_sc 1 0 u ∧ inside_sc (-1) 0 u) ∧
         (inside_sc 1 1 u ∧ inside_sc (-1) 1 u)) : inXYW u := by
  obtain ⟨⟨h1, h2⟩, h3, h4⟩ := h
  rw [inside_sc_pos] at h1 h3
  rw [inside_sc_neg] at h2 h4
  constructor
  · exact abs_le.mpr ⟨h2, h1⟩
  · exact abs_le.mpr ⟨h4, h3⟩

theorem pixel_loop_shape (shader : vertex → Option byte3) :
    ∀ (fuel : ℕ) (lx : line3d_stepper) (s : render_state),
      bufShape (pixel_loop shader fuel lx s) = bufShape s := by
  intro fuel
  induction fuel with
  | zero => intro lx s; rfl
  | succ n ih =>
    intro lx s
    rw [show pixel_loop shader (n + 1) lx s =
        (if lx.step.1 = true then
          pixel_loop shader n lx.step.2 (process_pixel shader lx.current s)
        else process_pixel shader lx.current s) from rfl]
    split_ifs with hr
    · rw [ih, process_pixel_shape]
    · rw [process_pixel_shape]

theorem scan_loop_shape (shader : vertex → Option byte3) :
    ∀ (fuel : ℕ) (la lb : line3d_stepper) (s : render_state),
      bufShape (scan_loop shader fuel la lb s) = bufShape s := by
  intro fuel
  induction fuel with
  | zero => intro la lb s; rfl
  | succ n ih =>
    intro la lb s
    rw [show scan_loop shader (n + 1) la lb s =
        (if la.step.1 = true then
          (if lb.step.1 = true then
            scan_loop shader n la.step.2 lb.step.2
              (pixel_loop shader
                ((line3d_stepper.init ⟨la.current, lb.current⟩ .x_difference).steps.toNat + 1)
                (line3d_stepper.init ⟨la.current, lb.current⟩ .x_difference) s)
          else
            pixel_loop shader
              ((line3d_stepper.init ⟨la.current, lb.current⟩ .x_difference).steps.toNat + 1)
              (line3d_stepper.init ⟨la.current, lb.current⟩ .x_difference) s)
        else
          pixel_loop shader
            ((line3d_stepper.init ⟨la.current, lb.current⟩ .x_difference).steps.toNat + 1)
            (line3d_stepper.init ⟨la.current, lb.current⟩ .x_difference) s) from rfl]
    split_ifs with h1 h2
    · rw [ih, pixel_loop_shape]
    · rw [pixel_loop_shape]
    · rw [pixel_loop_shape]

theorem render_from_lines_shape (shader : vertex → Option byte3)
    (s : render_state) (a b : line3d) :
    bufShape (render_from_lines shader s a b) = bufShape s := by
  unfold render_from_lines
  by_cases hsw : a.start.position.x > b.start.position.x
  · rw [if_pos hsw]; dsimp only; rw [scan_loop_shape]
  · rw [if_neg hsw]; dsimp only; rw [scan_loop_shape]

theorem fill_triangle_shape (shader : vertex → Option byte3) (s : render_state)
    (v0 v1 v2 : vertex) :
    bufShape (fill_triangle shader s v0 v1 v2) = bufShape s := by
  unfold fill_triangle
  dsimp only
  split_ifs with h1 h2
  · rw [render_from_lines_shape]
  · rw [render_from_lines_shape]
  · rw [render_from_lines_shape, render_from_lines_shape]

theorem fb_of_shape (s s' : render_state) (h : bufShape s' = bufShape s) :
    fbW s' = fbW s ∧ fbH s' = fbH s := by
  unfold bufShape at h
  have h1 : s'.color.map (fun cb => (cb.width, cb.height)) =
      s.color.map (fun cb => (cb.width, cb.height)) := congrArg Prod.fst h
  have h2 : s'.depth.map (fun db => (db.width, db.height)) =
      s.depth.map (fun db => (db.width, db.height)) := congrArg Prod.snd h
  unfold fbW fbH
  cases hc' : s'.color with
  | some cb' =>
    cases hc : s.color with
    | some cb =>
      rw [hc', hc] at h1
      simp at h1
      exact ⟨h1.1, h1.2⟩
    | none => rw [hc', hc] at h1; simp at h1
  | none =>
    cases hc : s.color with
    | some cb => rw [hc', hc] at h1; simp at h1
    | none =>
      cases hd' : s'.depth with
      | some db' =>
        cases hd : s.depth with
        | some db =>
          rw [hd', hd] at h2
          simp at h2
          exact ⟨h2.1, h2.2⟩
        | none => rw [hd', hd] at h2; simp at h2
      | none =>
        cases hd : s.depth with
        | some db => rw [hd', hd] at h2; simp at h2
        | none => exact ⟨rfl, rfl⟩

theorem fb_of_dims (s : render_state) (W H : ℤ)
    (hp : s.color ≠ none ∨ s.depth ≠ none) (hd : dims_eq s W H) :
    fbW s = W ∧ fbH s = H := by
  obtain ⟨hc, hdep⟩ := hd
  unfold fbW fbH
  cases hcol : s.color with
  | some cb =>
    have := hc cb hcol
    exact ⟨this.1, this.2⟩
  | none =>
    cases hdepth : s.depth with
    | some db =>
      have := hdep db hdepth
      exact ⟨this.1, this.2⟩
    | none =>
      exfalso
      rcases hp with h | h
      · exact h hcol
      · exact h hdepth

theorem fanTriangles_mem (ring : List vertex) (t : vertex × vertex × vertex)
    (ht : t ∈ fanTriangles ring) :
    t.1 ∈ ring ∧ t.2.1 ∈ ring ∧ t.2.2 ∈ ring := by
  cases ring with
  | nil => simp [fanTriangles] at ht
  | cons r0 rest =>
    simp only [fanTriangles, List.mem_map] at ht
    obtain ⟨p, hp, heq⟩ := ht
    have hz := List.of_mem_zip hp
    subst heq
    refine ⟨by simp, List.mem_cons_of_mem r0 hz.1, ?_⟩
    exact List.mem_cons_of_mem r0 (List.mem_of_mem_tail hz.2)

theorem access_in_ok (s : render_state) (W H : ℤ) (hd : dims_eq s W H)
    (a : access) (h : access_in W H a) : access_ok s a := by
  obtain ⟨hc, hdep⟩ := hd
  cases a with
  | depthAt x y =>
    intro db hdb
    have := hdep db hdb
    obtain ⟨h1, h2, h3, h4⟩ := h
    exact ⟨h1, this.1 ▸ h2, h3, this.2 ▸ h4⟩
  | colorAt x y =>
    intro cb hcb
    have := hc cb hcb
    obtain ⟨h1, h2, h3, h4⟩ := h
    exact ⟨h1, this.1 ▸ h2, h3, this.2 ▸ h4⟩

/-- C4 (amended): with at least one buffer present, positive dimensions,
equal dimensions when both buffers are present, and non-zero vertex w,
every buffer access recorded by render_triangle is inside the bounds of
the accessed buffer: the in-loop bounds assertions never fire. -/
theorem C4_bounds_amended (shader : vertex → Option byte3) (s : render_state)
    (v0 v1 v2 : vertex) (W H : ℤ)
    (hp : s.color ≠ none ∨ s.depth ≠ none)
    (hdims : dims_eq s W H) (hW : 1 ≤ W) (hH : 1 ≤ H)
    (_hw0 : v0.position.w ≠ 0) (_hw1 : v1.position.w ≠ 0)
    (_hw2 : v2.position.w ≠ 0) :
    ∀ a ∈ (render_triangle shader s v0 v1 v2).trace,
      a ∈ s.trace ∨ access_ok s a := by
  obtain ⟨hfbW, hfbH⟩ := fb_of_dims s W H hp hdims
  have hconv : ∀ a, access_in W H a → access_ok s a := access_in_ok s W H hdims
  intro a ha
  unfold render_triangle at ha
  split_ifs at ha with hv hnv
  · obtain ⟨hv0, hv1, hv2⟩ := hv
    obtain ⟨a1, a2, a3, a4, a5, a6⟩ := hv0
    obtain ⟨b1, b2, b3, b4, b5, b6⟩ := hv1
    obtain ⟨c1, c2, c3, c4, c5, c6⟩ := hv2
    have hx0 : inXYW v0 := ⟨abs_le.mpr ⟨a1, a2⟩, abs_le.mpr ⟨a3, a4⟩⟩
    have hx1 : inXYW v1 := ⟨abs_le.mpr ⟨b1, b2⟩, abs_le.mpr ⟨b3, b4⟩⟩
    have hx2 : inXYW v2 := ⟨abs_le.mpr ⟨c1, c2⟩, abs_le.mpr ⟨c3, c4⟩⟩
    rcases fill_triangle_trace shader s v0 v1 v2 hx0 hx1 hx2
      (by rw [hfbW]; exact hW) (by rw [hfbH]; exact hH) a ha with h | h
    · exact Or.inl h
    · rw [hfbW, hfbH] at h
      exact Or.inr (hconv a h)
  · exact Or.inl ha
  · have hsat := triangle_clip_sat v0 v1 v2
    have hfan : ∀ t ∈ fanTriangles (triangle_clip v0 v1 v2),
        inXYW t.1 ∧ inXYW t.2.1 ∧ inXYW t.2.2 := by
      intro t ht
      obtain ⟨m1, m2, m3⟩ := fanTriangles_mem _ t ht
      exact ⟨sat_inXYW _ (hsat _ m1), sat_inXYW _ (hsat _ m2),
             sat_inXYW _ (hsat _ m3)⟩
    have hfold : ∀ (L : List (vertex × vertex × vertex)) (st : render_state),
        bufShape st = bufShape s →
        (∀ t ∈ L, inXYW t.1 ∧ inXYW t.2.1 ∧ inXYW t.2.2) →
        (∀ x ∈ st.trace, x ∈ s.trace ∨ access_in W H x) →
        ∀ x ∈ (L.foldl (fun st t => fill_triangle shader st t.1 t.2.1 t.2.2) st).trace,
          x ∈ s.trace ∨ access_in W H x := by
      intro L
      induction L with
      | nil => intro st _ _ hacc x hx; exact hacc x hx
      | cons t L ih =>
        intro st hshape hall hacc x hx
        simp only [List.foldl_cons] at hx
        obtain ⟨hW', hH'⟩ := fb_of_shape s st hshape
        refine ih (fill_triangle shader st t.1 t.2.1 t.2.2)
          (by rw [fill_triangle_shape]; exact hshape)
          (fun u hu => hall u (List.mem_cons_of_mem t hu)) ?_ x hx
        intro y hy
        rcases fill_triangle_trace shader st t.1 t.2.1 t.2.2
          (hall t (List.mem_cons_self t L)).1
          (hall t (List.mem_cons_self t L)).2.1
          (hall t (List.mem_cons_self t L)).2.2
          (by rw [hW', hfbW]; exact hW) (by rw [hH', hfbH]; exact hH) y hy with h | h
        · exact hacc y h
        · rw [hW', hfbW, hH', hfbH] at h
          exact Or.inr h
    rcases hfold (fanTriangles (triangle_clip v0 v1 v2)) s rfl hfan
      (fun x hx => Or.inl hx) a ha with h | h
    · exact Or.inl h
    · exact Or.inr (hconv a h)

theorem C4_witness :
    (((⟨some ⟨1, 1, fun _ _ => ⟨0, 0, 0⟩⟩, some ⟨1, 1, fun _ _ => 1⟩, []⟩ :
        render_state).color ≠ none ∨
      (⟨some ⟨1, 1, fun _ _ => ⟨0, 0, 0⟩⟩, some ⟨1, 1, fun _ _ => 1⟩, []⟩ :
        render_state).depth ≠ none) ∧
     dims_eq ⟨some ⟨1, 1, fun _ _ => ⟨0, 0, 0⟩⟩, some ⟨1, 1, fun _ _ => 1⟩, []⟩ 1 1 ∧
     (1 : ℤ) ≤ 1 ∧
     ((⟨⟨0, 0, 0, 1⟩, []⟩ : vertex).position.w ≠ 0)) ∧
    ∀ a ∈ (render_triangle (fun _ => none)
        ⟨some ⟨1, 1, fun _ _ => ⟨0, 0, 0⟩⟩, some ⟨1, 1, fun _ _ => 1⟩, []⟩
        ⟨⟨0, 0, 0, 1⟩, []⟩ ⟨⟨0, 0, 0, 1⟩, []⟩ ⟨⟨0, 0, 0, 1⟩, []⟩).trace,
      a ∈ (⟨some ⟨1, 1, fun _ _ => ⟨0, 0, 0⟩⟩, some ⟨1, 1, fun _ _ => 1⟩, []⟩ :
        render_state).trace ∨
      access_ok ⟨some ⟨1, 1, fun _ _ => ⟨0, 0, 0⟩⟩, some ⟨1, 1, fun _ _ => 1⟩, []⟩ a := by
  refine ⟨⟨Or.inl (by simp), ?_, le_refl 1, by decide⟩, ?_⟩
  · constructor
    · intro cb hcb
      injection hcb with h
      rw [← h]
      exact ⟨rfl, rfl⟩
    · intro db hdb
      injection hdb with h
      rw [← h]
      exact ⟨rfl, rfl⟩
  · refine C4_bounds_amended (fun _ => none) _ _ _ _ 1 1 (Or.inl (by simp)) ?_
      (le_refl 1) (le_refl 1) (by decide) (by decide) (by decide)
    constructor
    · intro cb hcb
      injection hcb with h
      rw [← h]
      exact ⟨rfl, rfl⟩
    · intro db hdb
      injection hdb with h
      rw [← h]
      exact ⟨rfl, rfl⟩

theorem pixel_loop_succ (shader : vertex → Option byte3) (n : ℕ)
    (lx : line3d_stepper) (s : render_state) :
    pixel_loop shader (n + 1) lx s =
      (if lx.step.1 = true then
        pixel_loop shader n lx.step.2 (process_pixel shader lx.current s)
      else process_pixel shader lx.current s) := rfl

theorem scan_loop_succ (shader : vertex → Option byte3) (n : ℕ)
    (la lb : line3d_stepper) (s : render_state) :
    scan_loop shader (n + 1) la lb s =
      (if la.step.1 = true then
        (if lb.step.1 = true then
          scan_loop shader n la.step.2 lb.step.2
            (pixel_loop shader
              ((line3d_stepper.init ⟨la.current, lb.current⟩ .x_difference).steps.toNat + 1)
              (line3d_stepper.init ⟨la.current, lb.current⟩ .x_difference) s)
        else
          pixel_loop shader
            ((line3d_stepper.init ⟨la.current, lb.current⟩ .x_difference).steps.toNat + 1)
            (line3d_stepper.init ⟨la.current, lb.current⟩ .x_difference) s)
      else
        pixel_loop shader
          ((line3d_stepper.init ⟨la.current, lb.current⟩ .x_difference).steps.toNat + 1)
          (line3d_stepper.init ⟨la.current, lb.current⟩ .x_difference) s) := rfl

theorem degenerate_step (u : vertex) :
    (⟨u, zeroVertex, 0, 0⟩ : line3d_stepper).step = (false, ⟨u, zeroVertex, 0, 0⟩) := by
  unfold line3d_stepper.step
  rw [if_pos rfl]

/-- C4, counterexample to the claim as stated: with a 5 x 5 color buffer
and a 1 x 1 depth buffer (both present, every vertex w = 1), rendering
the visible triangle whose vertices all sit at clip position (1, 1, 0, 1)
accesses the depth buffer at pixel (4, 4), violating the depth buffer's
own bounds assertion: without the equal-dimensions amendment the claim
is false. -/
theorem C4_counterexample :
    access.depthAt 4 4 ∈ (render_triangle (fun _ => none)
      ⟨some ⟨5, 5, fun _ _ => ⟨0, 0, 0⟩⟩, some ⟨1, 1, fun _ _ => 1⟩, []⟩
      ⟨⟨1, 1, 0, 1⟩, []⟩ ⟨⟨1, 1, 0, 1⟩, []⟩ ⟨⟨1, 1, 0, 1⟩, []⟩).trace ∧
    ¬access_ok ⟨some ⟨5, 5, fun _ _ => ⟨0, 0, 0⟩⟩, some ⟨1, 1, fun _ _ => 1⟩, []⟩
      (access.depthAt 4 4) := by
  constructor
  · set s0 : render_state :=
      ⟨some ⟨5, 5, fun _ _ => ⟨0, 0, 0⟩⟩, some ⟨1, 1, fun _ _ => 1⟩, []⟩ with hs0
    set v : vertex := ⟨⟨1, 1, 0, 1⟩, []⟩ with hv
    set u : vertex := ⟨⟨4, 4, 0, 1⟩, []⟩ with hu
    have hvis : visible_point v.position := by
      rw [hv]
      refine ⟨by norm_num, by norm_num, by norm_num, by norm_num, by norm_num,
        by norm_num⟩
    have h1 : render_triangle (fun _ => none) s0 v v v =
        fill_triangle (fun _ => none) s0 v v v := by
      unfold render_triangle
      rw [if_pos ⟨hvis, hvis, hvis⟩]
    have h2 : viewportV (fbW s0) (fbH s0) (wdivV v) = u := by
      show viewportV 5 5 (wdivV v) = u
      rw [hv, hu]
      unfold viewportV wdivV ratRound
      norm_num
    have hsort : sortByY u u u = (u, u, u) := by
      unfold sortByY
      rw [if_neg (lt_irrefl _)]
      dsimp only
      rw [if_neg (lt_irrefl _)]
      dsimp only
      rw [if_neg (lt_irrefl _)]
    have h3 : fill_triangle (fun _ => none) s0 v v v =
        render_from_lines (fun _ => none) s0 ⟨u, u⟩ ⟨u, u⟩ := by
      unfold fill_triangle
      dsimp only
      rw [h2, hsort]
      dsimp only
      rw [if_pos rfl]
    have hround : roundXY u = u := by
      rw [hu]
      unfold roundXY ratRound
      norm_num
    have hst : line3d_stepper.init ⟨u, u⟩ calc_steps_based_on.y_difference =
        ⟨u, zeroVertex, 0, 0⟩ := by
      rw [init_self_eq, hround]
    have hstx : line3d_stepper.init ⟨u, u⟩ calc_steps_based_on.x_difference =
        ⟨u, zeroVertex, 0, 0⟩ := by
      rw [init_self_eq, hround]
    have h4 : render_from_lines (fun _ => none) s0 ⟨u, u⟩ ⟨u, u⟩ =
        scan_loop (fun _ => none) 1 ⟨u, zeroVertex, 0, 0⟩ ⟨u, zeroVertex, 0, 0⟩ s0 := by
      unfold render_from_lines
      rw [if_neg (lt_irrefl _)]
      dsimp only
      rw [hst]
      norm_num
    have h5 : scan_loop (fun _ => none) 1 ⟨u, zeroVertex, 0, 0⟩
        ⟨u, zeroVertex, 0, 0⟩ s0 =
        pixel_loop (fun _ => none) 1 ⟨u, zeroVertex, 0, 0⟩ s0 := by
      rw [show (1 : ℕ) = 0 + 1 from rfl, scan_loop_succ, degenerate_step]
      dsimp only
      rw [if_neg (by simp)]
      show pixel_loop (fun _ => none)
        ((line3d_stepper.init ⟨u, u⟩ calc_steps_based_on.x_difference).steps.toNat + 1)
        (line3d_stepper.init ⟨u, u⟩ calc_steps_based_on.x_difference) s0 =
        pixel_loop (fun _ => none) 1 ⟨u, zeroVertex, 0, 0⟩ s0
      rw [hstx]
      norm_num
    have h6 : pixel_loop (fun _ => none) 1 ⟨u, zeroVertex, 0, 0⟩ s0 =
        process_pixel (fun _ => none) u s0 := by
      rw [show (1 : ℕ) = 0 + 1 from rfl, pixel_loop_succ, degenerate_step]
      dsimp only
      rw [if_neg (by simp)]
    have htx : ratTrunc u.position.x = 4 := by
      rw [hu]
      unfold ratTrunc
      norm_num
    have hty : ratTrunc u.position.y = 4 := by
      rw [hu]
      unfold ratTrunc
      norm_num
    have h7 : access.depthAt 4 4 ∈ (process_pixel (fun _ => none) u s0).trace := by
      unfold process_pixel color_part
      dsimp only
      split_ifs <;> norm_num [ratTrunc]
    rw [h1, h3, h4, h5, h6]
    exact h7
  · intro h
    have h2 := (h ⟨1, 1, fun _ _ => 1⟩ rfl).2.1
    norm_num at h2

theorem zconst_step (c : ℚ) (st : line3d_stepper) (h : zConstSt c st) :
    zConstSt c st.step.2 := by
  obtain ⟨h1, h2⟩ := h
  unfold line3d_stepper.step
  split_ifs with hi
  · exact ⟨h1, h2⟩
  · refine ⟨?_, h2⟩
    dsimp only [vadd]
    rw [h1, h2, add_zero]

theorem zconst_init (c : ℚ) (l : line3d) (pol : calc_steps_based_on)
    (hs : l.start.position.z = c) (he : l.stop.position.z = c) :
    zConstSt c (line3d_stepper.init l pol) := by
  unfold line3d_stepper.init
  cases pol <;> dsimp only <;> split_ifs <;>
    first
      | exact ⟨hs, rfl⟩
      | exact ⟨hs, by dsimp only [vdiv, vsub, roundXY]; rw [hs, he, sub_self, zero_div]⟩

theorem zconst_current (c : ℚ) (st : line3d_stepper) (h : zConstSt c st) :
    st.current.position.z = c := h.1

theorem process_pixel_noop_eq (shader : vertex → Option byte3) (v : vertex)
    (s : render_state) (db : depth_buffer) (hd : s.depth = some db)
    (hge : ¬(v.position.z <
      db.data (ratTrunc v.position.x) (ratTrunc v.position.y))) :
    process_pixel shader v s =
      { s with trace := (access.depthAt (ratTrunc v.position.x) (ratTrunc v.position.y)) :: s.trace } := by
  unfold process_pixel
  rw [hd]
  dsimp only
  rw [if_neg hge]

theorem process_pixel_post (shader : vertex → Option byte3) (v : vertex)
    (s : render_state) (db : depth_buffer) (c : ℚ) (hd : s.depth = some db)
    (hz : v.position.z = c) :
    ∃ db', (process_pixel shader v s).depth = some db' ∧
      db'.data (ratTrunc v.position.x) (ratTrunc v.position.y) ≤ c ∧
      (∀ x y, db.data x y ≤ c → db'.data x y ≤ c) := by
  unfold process_pixel
  rw [hd]
  dsimp only
  split_ifs with hlt
  · refine ⟨db_write db (ratTrunc v.position.x) (ratTrunc v.position.y)
      v.position.z, ?_, ?_, ?_⟩
    · unfold color_part
      cases hc : s.color with
      | none => rfl
      | some cb =>
        dsimp only
        cases shader v with
        | none => rfl
        | some col => rfl
    · unfold db_write
      dsimp only
      rw [if_pos ⟨rfl, rfl⟩, hz]
    · intro x y hxy
      unfold db_write
      dsimp only
      split_ifs with hxyeq
      · rw [hz]
      · exact hxy
  · refine ⟨db, rfl, ?_, fun x y h => h⟩
    rw [hz] at hlt
    linarith [not_lt.mp hlt]

theorem visits_pixel_succ (n : ℕ) (lx : line3d_stepper) :
    visits_pixel (n + 1) lx =
      (ratTrunc lx.current.position.x, ratTrunc lx.current.position.y) ::
      (if lx.step.1 = true then visits_pixel n lx.step.2 else []) := rfl

theorem visits_scan_succ (n : ℕ) (la lb : line3d_stepper) :
    visits_scan (n + 1) la lb =
      visits_pixel
        ((line3d_stepper.init ⟨la.current, lb.current⟩ .x_difference).steps.toNat + 1)
        (line3d_stepper.init ⟨la.current, lb.current⟩ .x_difference) ++
      (if la.step.1 = true then
        (if lb.step.1 = true then visits_scan n la.step.2 lb.step.2 else [])
      else []) := rfl

theorem pixel_loop_post (shader : vertex → Option byte3) (c : ℚ) :
    ∀ (fuel : ℕ) (lx : line3d_stepper) (s : render_state) (db : depth_buffer),
      s.depth = some db → zConstSt c lx →
      ∃ db', (pixel_loop shader fuel lx s).depth = some db' ∧
        (∀ x y, db.data x y ≤ c → db'.data x y ≤ c) ∧
        (∀ p ∈ visits_pixel fuel lx, db'.data p.1 p.2 ≤ c) := by
  intro fuel
  induction fuel with
  | zero =>
    intro lx s db hd _
    exact ⟨db, hd, fun _ _ h => h, by intro p hp; simp [visits_pixel] at hp⟩
  | succ n ih =>
    intro lx s db hd hzc
    obtain ⟨db1, hdb1, hat1, hpres1⟩ :=
      process_pixel_post shader lx.current s db c hd hzc.1
    rw [pixel_loop_succ, visits_pixel_succ]
    split_ifs with hr
    · obtain ⟨db2, hdb2, hpres2, hv2⟩ :=
        ih lx.step.2 (process_pixel shader lx.current s) db1 hdb1
          (zconst_step c lx hzc)
      refine ⟨db2, hdb2, fun x y h => hpres2 x y (hpres1 x y h), ?_⟩
      intro p hp
      rcases List.mem_cons.mp hp with h | h
      · subst h
        exact hpres2 _ _ hat1
      · exact hv2 p h
    · refine ⟨db1, hdb1, hpres1, ?_⟩
      intro p hp
      rcases List.mem_cons.mp hp with h | h
      · subst h
        exact hat1
      · simp at h

theorem pixel_loop_noop (shader : vertex → Option byte3) (c1 c2 : ℚ)
    (hlt : c1 < c2) :
    ∀ (fuel : ℕ) (lx : line3d_stepper) (s : render_state) (db : depth_buffer),
      s.depth = some db → zConstSt c2 lx →
      (∀ p ∈ visits_pixel fuel lx, db.data p.1 p.2 ≤ c1) →
      (pixel_loop shader fuel lx s).depth = s.depth ∧
      (pixel_loop shader fuel lx s).color = s.color := by
  intro fuel
  induction fuel with
  | zero => intro lx s db _ _ _; exact ⟨rfl, rfl⟩
  | succ n ih =>
    intro lx s db hd hzc hb
    have hhead : db.data (ratTrunc lx.current.position.x)
        (ratTrunc lx.current.position.y) ≤ c1 := by
      have := hb (ratTrunc lx.current.position.x, ratTrunc lx.current.position.y)
      rw [visits_pixel_succ] at this
      exact this (List.mem_cons_self _ _)
    have hge : ¬(lx.current.position.z <
        db.data (ratTrunc lx.current.position.x) (ratTrunc lx.current.position.y)) := by
      rw [hzc.1]
      push_neg
      linarith
    have heq := process_pixel_noop_eq shader lx.current s db hd hge
    rw [pixel_loop_succ]
    split_ifs with hr
    · have hd1 : (process_pixel shader lx.current s).depth = some db := by
        rw [heq]; exact hd
      have hb1 : ∀ p ∈ visits_pixel n lx.step.2, db.data p.1 p.2 ≤ c1 := by
        intro p hp
        have := hb p
        rw [visits_pixel_succ] at this
        exact this (List.mem_cons_of_mem _ (by rw [if_pos hr]; exact hp))
      obtain ⟨hd2, hc2⟩ := ih lx.step.2 (process_pixel shader lx.current s) db hd1
        (zconst_step c2 lx hzc) hb1
      rw [hd2, hc2, heq]
      exact ⟨rfl, rfl⟩
    · rw [heq]
      exact ⟨rfl, rfl⟩

theorem scan_loop_post (shader : vertex → Option byte3) (c : ℚ) :
    ∀ (fuel : ℕ) (la lb : line3d_stepper) (s : render_state) (db : depth_buffer),
      s.depth = some db → zConstSt c la → zConstSt c lb →
      ∃ db', (scan_loop shader fuel la lb s).depth = some db' ∧
        (∀ x y, db.data x y ≤ c → db'.data x y ≤ c) ∧
        (∀ p ∈ visits_scan fuel la lb, db'.data p.1 p.2 ≤ c) := by
  intro fuel
  induction fuel with
  | zero =>
    intro la lb s db hd _ _
    exact ⟨db, hd, fun _ _ h => h, by intro p hp; simp [visits_scan] at hp⟩
  | succ n ih =>
    intro la lb s db hd hza hzb
    have hzlx : zConstSt c (line3d_stepper.init ⟨la.current, lb.current⟩ .x_difference) :=
      zconst_init c _ _ hza.1 hzb.1
    obtain ⟨db1, hdb1, hpres1, hv1⟩ :=
      pixel_loop_post shader c _ _ s db hd hzlx
    rw [scan_loop_succ, visits_scan_succ]
    split_ifs with h1 h2
    · obtain ⟨db2, hdb2, hpres2, hv2⟩ :=
        ih la.step.2 lb.step.2 _ db1 hdb1 (zconst_step c la hza) (zconst_step c lb hzb)
      refine ⟨db2, hdb2, fun x y h => hpres2 x y (hpres1 x y h), ?_⟩
      intro p hp
      rcases List.mem_append.mp hp with h | h
      · exact hpres2 _ _ (hv1 p h)
      · exact hv2 p h
    · refine ⟨db1, hdb1, hpres1, ?_⟩
      intro p hp
      rcases List.mem_append.mp hp with h | h
      · exact hv1 p h
      · simp at h
    · refine ⟨db1, hdb1, hpres1, ?_⟩
      intro p hp
      rcases List.mem_append.mp hp with h | h
      · exact hv1 p h
      · simp at h

theorem scan_loop_noop (shader : vertex → Option byte3) (c1 c2 : ℚ)
    (hlt : c1 < c2) :
    ∀ (fuel : ℕ) (la lb : line3d_stepper) (s : render_state) (db : depth_buffer),
      s.depth = some db → zConstSt c2 la → zConstSt c2 lb →
      (∀ p ∈ visits_scan fuel la lb, db.data p.1 p.2 ≤ c1) →
      (scan_loop shader fuel la lb s).depth = s.depth ∧
      (scan_loop shader fuel la lb s).color = s.color := by
  intro fuel
  induction fuel with
  | zero => intro la lb s db _ _ _ _; exact ⟨rfl, rfl⟩
  | succ n ih =>
    intro la lb s db hd hza hzb hb
    have hzlx : zConstSt c2 (line3d_stepper.init ⟨la.current, lb.current⟩ .x_difference) :=
      zconst_init c2 _ _ hza.1 hzb.1
    have hbP : ∀ p ∈ visits_pixel
        ((line3d_stepper.init ⟨la.current, lb.current⟩ .x_difference).steps.toNat + 1)
        (line3d_stepper.init ⟨la.current, lb.current⟩ .x_difference),
        db.data p.1 p.2 ≤ c1 := by
      intro p hp
      have := hb p
      rw [visits_scan_succ] at this
      exact this (List.mem_append_left _ hp)
    obtain ⟨hdP, hcP⟩ := pixel_loop_noop shader c1 c2 hlt _ _ s db hd hzlx hbP
    rw [scan_loop_succ]
    split_ifs with h1 h2
    · have hd1 : (pixel_loop shader
          ((line3d_stepper.init ⟨la.current, lb.current⟩ .x_difference).steps.toNat + 1)
          (line3d_stepper.init ⟨la.current, lb.current⟩ .x_difference) s).depth =
          some db := by rw [hdP]; exact hd
      have hb1 : ∀ p ∈ visits_scan n la.step.2 lb.step.2, db.data p.1 p.2 ≤ c1 := by
        intro p hp
        have := hb p
        rw [visits_scan_succ] at this
        exact this (List.mem_append_right _ (by rw [if_pos h1, if_pos h2]; exact hp))
      obtain ⟨hd2, hc2⟩ := ih la.step.2 lb.step.2 _ db hd1
        (zconst_step c2 la hza) (zconst_step c2 lb hzb) hb1
      rw [hd2, hc2, hdP, hcP]
      exact ⟨rfl, rfl⟩
    · exact ⟨hdP, hcP⟩
    · exact ⟨hdP, hcP⟩

theorem render_from_lines_post (shader : vertex → Option byte3) (c : ℚ)
    (s : render_state) (db : depth_buffer) (a b : line3d)
    (hd : s.depth = some db)
    (hza1 : a.start.position.z = c) (hza2 : a.stop.position.z = c)
    (hzb1 : b.start.position.z = c) (hzb2 : b.stop.position.z = c) :
    ∃ db', (render_from_lines shader s a b).depth = some db' ∧
      (∀ x y, db.data x y ≤ c → db'.data x y ≤ c) ∧
      (∀ p ∈ visits_from_lines a b, db'.data p.1 p.2 ≤ c) := by
  unfold render_from_lines visits_from_lines
  by_cases hsw : a.start.position.x > b.start.position.x
  · rw [if_pos hsw]
    dsimp only
    exact scan_loop_post shader c _ _ _ s db hd
      (zconst_init c _ _ hzb1 hzb2) (zconst_init c _ _ hza1 hza2)
  · rw [if_neg hsw]
    dsimp only
    exact scan_loop_post shader c _ _ _ s db hd
      (zconst_init c _ _ hza1 hza2) (zconst_init c _ _ hzb1 hzb2)

theorem render_from_lines_noop (shader : vertex → Option byte3) (c1 c2 : ℚ)
    (hlt : c1 < c2) (s : render_state) (db : depth_buffer) (a b : line3d)
    (hd : s.depth = some db)
    (hza1 : a.start.position.z = c2) (hza2 : a.stop.position.z = c2)
    (hzb1 : b.start.position.z = c2) (hzb2 : b.stop.position.z = c2)
    (hb : ∀ p ∈ visits_from_lines a b, db.data p.1 p.2 ≤ c1) :
    (render_from_lines shader s a b).depth = s.depth ∧
    (render_from_lines shader s a b).color = s.color := by
  unfold render_from_lines
  unfold visits_from_lines at hb
  by_cases hsw : a.start.position.x > b.start.position.x
  · rw [if_pos hsw] at hb ⊢
    dsimp only at hb ⊢
    exact scan_loop_noop shader c1 c2 hlt _ _ _ s db hd
      (zconst_init c2 _ _ hzb1 hzb2) (zconst_init c2 _ _ hza1 hza2) hb
  · rw [if_neg hsw] at hb ⊢
    dsimp only at hb ⊢
    exact scan_loop_noop shader c1 c2 hlt _ _ _ s db hd
      (zconst_init c2 _ _ hza1 hza2) (zconst_init c2 _ _ hzb1 hzb2) hb

theorem transform_z (W H : ℤ) (v : vertex) :
    (viewportV W H (wdivV v)).position.z = v.position.z / v.position.w := rfl

theorem stdLerp_self (a t : ℚ) : stdLerp a a t = a := by
  unfold stdLerp
  ring

theorem lerp_z (a b : vertex) (t : ℚ) :
    (vertex.lerp a b t).position.z = stdLerp a.position.z b.position.z t := rfl

theorem fill_core_post (shader : vertex → Option byte3) (c : ℚ)
    (s : render_state) (db : depth_buffer) (A B C : vertex)
    (hd : s.depth = some db) (hzA : A.position.z = c) (hzB : B.position.z = c)
    (hzC : C.position.z = c) :
    ∃ db', (if A.position.y = B.position.y then
        render_from_lines shader s ⟨A, C⟩ ⟨B, C⟩
      else if B.position.y = C.position.y then
        render_from_lines shader s ⟨A, B⟩ ⟨A, C⟩
      else
        render_from_lines shader
          (render_from_lines shader s ⟨A, B⟩
            ⟨A, vertex.lerp A C
              ((B.position.y - A.position.y) / (C.position.y - A.position.y))⟩)
          ⟨B, C⟩
          ⟨vertex.lerp A C
            ((B.position.y - A.position.y) / (C.position.y - A.position.y)), C⟩).depth =
        some db' ∧
      (∀ x y, db.data x y ≤ c → db'.data x y ≤ c) ∧
      (∀ p ∈ (if A.position.y = B.position.y then
          visits_from_lines ⟨A, C⟩ ⟨B, C⟩
        else if B.position.y = C.position.y then
          visits_from_lines ⟨A, B⟩ ⟨A, C⟩
        else
          visits_from_lines ⟨A, B⟩
            ⟨A, vertex.lerp A C
              ((B.position.y - A.position.y) / (C.position.y - A.position.y))⟩ ++
          visits_from_lines ⟨B, C⟩
            ⟨vertex.lerp A C
              ((B.position.y - A.position.y) / (C.position.y - A.position.y)), C⟩),
        db'.data p.1 p.2 ≤ c) := by
  have hz3 : (vertex.lerp A C
      ((B.position.y - A.position.y) / (C.position.y - A.position.y))).position.z = c := by
    rw [lerp_z, hzA, hzC, stdLerp_self]
  split_ifs with hf1 hf2
  · exact render_from_lines_post shader c s db ⟨A, C⟩ ⟨B, C⟩ hd hzA hzC hzB hzC
  · exact render_from_lines_post shader c s db ⟨A, B⟩ ⟨A, C⟩ hd hzA hzB hzA hzC
  · obtain ⟨db1, hdb1, hpres1, hv1⟩ :=
      render_from_lines_post shader c s db ⟨A, B⟩
        ⟨A, vertex.lerp A C
          ((B.position.y - A.position.y) / (C.position.y - A.position.y))⟩
        hd hzA hzB hzA hz3
    obtain ⟨db2, hdb2, hpres2, hv2⟩ :=
      render_from_lines_post shader c _ db1 ⟨B, C⟩
        ⟨vertex.lerp A C
          ((B.position.y - A.position.y) / (C.position.y - A.position.y)), C⟩
        hdb1 hzB hzC hz3 hzC
    refine ⟨db2, hdb2, fun x y h => hpres2 x y (hpres1 x y h), ?_⟩
    intro p hp
    rcases List.mem_append.mp hp with h | h
    · exact hpres2 _ _ (hv1 p h)
    · exact hv2 p h

theorem fill_core_noop (shader : vertex → Option byte3) (c1 c2 : ℚ)
    (hlt : c1 < c2) (s : render_state) (db : depth_buffer) (A B C : vertex)
    (hd : s.depth = some db) (hzA : A.position.z = c2) (hzB : B.position.z = c2)
    (hzC : C.position.z = c2)
    (hb : ∀ p ∈ (if A.position.y = B.position.y then
          visits_from_lines ⟨A, C⟩ ⟨B, C⟩
        else if B.position.y = C.position.y then
          visits_from_lines ⟨A, B⟩ ⟨A, C⟩
        else
          visits_from_lines ⟨A, B⟩
            ⟨A, vertex.lerp A C
              ((B.position.y - A.position.y) / (C.position.y - A.position.y))⟩ ++
          visits_from_lines ⟨B, C⟩
            ⟨vertex.lerp A C
              ((B.position.y - A.position.y) / (C.position.y - A.position.y)), C⟩),
        db.data p.1 p.2 ≤ c1) :
    (if A.position.y = B.position.y then
        render_from_lines shader s ⟨A, C⟩ ⟨B, C⟩
      else if B.position.y = C.position.y then
        render_from_lines shader s ⟨A, B⟩ ⟨A, C⟩
      else
        render_from_lines shader
          (render_from_lines shader s ⟨A, B⟩
            ⟨A, vertex.lerp A C
              ((B.position.y - A.position.y) / (C.position.y - A.position.y))⟩)
          ⟨B, C⟩
          ⟨vertex.lerp A C
            ((B.position.y - A.position.y) / (C.position.y - A.position.y)), C⟩).depth =
      s.depth ∧
    (if A.position.y = B.position.y then
        render_from_lines shader s ⟨A, C⟩ ⟨B, C⟩
      else if B.position.y = C.position.y then
        render_from_lines shader s ⟨A, B⟩ ⟨A, C⟩
      else
        render_from_lines shader
          (render_from_lines shader s ⟨A, B⟩
            ⟨A, vertex.lerp A C
              ((B.position.y - A.position.y) / (C.position.y - A.position.y))⟩)
          ⟨B, C⟩
          ⟨vertex.lerp A C
            ((B.position.y - A.position.y) / (C.position.y - A.position.y)), C⟩).color =
      s.color := by
  have hz3 : (vertex.lerp A C
      ((B.position.y - A.position.y) / (C.position.y - A.position.y))).position.z = c2 := by
    rw [lerp_z, hzA, hzC, stdLerp_self]
  split_ifs at hb ⊢ with hf1 hf2
  · exact render_from_lines_noop shader c1 c2 hlt s db ⟨A, C⟩ ⟨B, C⟩ hd
      hzA hzC hzB hzC hb
  · exact render_from_lines_noop shader c1 c2 hlt s db ⟨A, B⟩ ⟨A, C⟩ hd
      hzA hzB hzA hzC hb
  · obtain ⟨hd1, hc1⟩ := render_from_lines_noop shader c1 c2 hlt s db ⟨A, B⟩
      ⟨A, vertex.lerp A C
        ((B.position.y - A.position.y) / (C.position.y - A.position.y))⟩
      hd hzA hzB hzA hz3 (fun p hp => hb p (List.mem_append_left _ hp))
    have hd1' : (render_from_lines shader s ⟨A, B⟩
        ⟨A, vertex.lerp A C
          ((B.position.y - A.position.y) / (C.position.y - A.position.y))⟩).depth =
        some db := by rw [hd1]; exact hd
    obtain ⟨hd2, hc2⟩ := render_from_lines_noop shader c1 c2 hlt _ db ⟨B, C⟩
      ⟨vertex.lerp A C
        ((B.position.y - A.position.y) / (C.position.y - A.position.y)), C⟩
      hd1' hzB hzC hz3 hzC (fun p hp => hb p (List.mem_append_right _ hp))
    rw [hd2, hc2, hd1, hc1]
    exact ⟨rfl, rfl⟩

theorem fill_post (shader : vertex → Option byte3) (c : ℚ) (s : render_state)
    (db : depth_buffer) (v0 v1 v2 : vertex) (hd : s.depth = some db)
    (hz0 : v0.position.z = c) (hw0 : v0.position.w = 1)
    (hz1 : v1.position.z = c) (hw1 : v1.position.w = 1)
    (hz2 : v2.position.z = c) (hw2 : v2.position.w = 1) :
    ∃ db', (fill_triangle shader s v0 v1 v2).depth = some db' ∧
      (∀ x y, db.data x y ≤ c → db'.data x y ≤ c) ∧
      (∀ p ∈ fill_visits (fbW s) (fbH s) v0 v1 v2, db'.data p.1 p.2 ≤ c) := by
  have hzu0 : (viewportV (fbW s) (fbH s) (wdivV v0)).position.z = c := by
    rw [transform_z, hz0, hw0, div_one]
  have hzu1 : (viewportV (fbW s) (fbH s) (wdivV v1)).position.z = c := by
    rw [transform_z, hz1, hw1, div_one]
  have hzu2 : (viewportV (fbW s) (fbH s) (wdivV v2)).position.z = c := by
    rw [transform_z, hz2, hw2, div_one]
  obtain ⟨hmA, hmB, hmC, _, _⟩ := sortByY_spec (viewportV (fbW s) (fbH s) (wdivV v0))
    (viewportV (fbW s) (fbH s) (wdivV v1)) (viewportV (fbW s) (fbH s) (wdivV v2))
  have hzA : (sortByY (viewportV (fbW s) (fbH s) (wdivV v0))
      (viewportV (fbW s) (fbH s) (wdivV v1))
      (viewportV (fbW s) (fbH s) (wdivV v2))).1.position.z = c := by
    rcases hmA with h | h | h <;> rw [h] <;> assumption
  have hzB : (sortByY (viewportV (fbW s) (fbH s) (wdivV v0))
      (viewportV (fbW s) (fbH s) (wdivV v1))
      (viewportV (fbW s) (fbH s) (wdivV v2))).2.1.position.z = c := by
    rcases hmB with h | h | h <;> rw [h] <;> assumption
  have hzC : (sortByY (viewportV (fbW s) (fbH s) (wdivV v0))
      (viewportV (fbW s) (fbH s) (wdivV v1))
      (viewportV (fbW s) (fbH s) (wdivV v2))).2.2.position.z = c := by
    rcases hmC with h | h | h <;> rw [h] <;> assumption
  unfold fill_triangle fill_visits
  dsimp only
  exact fill_core_post shader c s db _ _ _ hd hzA hzB hzC

theorem fill_noop (shader : vertex → Option byte3) (c1 c2 : ℚ) (hlt : c1 < c2)
    (s : render_state) (db : depth_buffer) (v0 v1 v2 : vertex)
    (hd : s.depth = some db)
    (hz0 : v0.position.z = c2) (hw0 : v0.position.w = 1)
    (hz1 : v1.position.z = c2) (hw1 : v1.position.w = 1)
    (hz2 : v2.position.z = c2) (hw2 : v2.position.w = 1)
    (hb : ∀ p ∈ fill_visits (fbW s) (fbH s) v0 v1 v2, db.data p.1 p.2 ≤ c1) :
    (fill_triangle shader s v0 v1 v2).depth = s.depth ∧
    (fill_triangle shader s v0 v1 v2).color = s.color := by
  have hzu0 : (viewportV (fbW s) (fbH s) (wdivV v0)).position.z = c2 := by
    rw [transform_z, hz0, hw0, div_one]
  have hzu1 : (viewportV (fbW s) (fbH s) (wdivV v1)).position.z = c2 := by
    rw [transform_z, hz1, hw1, div_one]
  have hzu2 : (viewportV (fbW s) (fbH s) (wdivV v2)).position.z = c2 := by
    rw [transform_z, hz2, hw2, div_one]
  obtain ⟨hmA, hmB, hmC, _, _⟩ := sortByY_spec (viewportV (fbW s) (fbH s) (wdivV v0))
    (viewportV (fbW s) (fbH s) (wdivV v1)) (viewportV (fbW s) (fbH s) (wdivV v2))
  have hzA : (sortByY (viewportV (fbW s) (fbH s) (wdivV v0))
      (viewportV (fbW s) (fbH s) (wdivV v1))
      (viewportV (fbW s) (fbH s) (wdivV v2))).1.position.z = c2 := by
    rcases hmA with h | h | h <;> rw [h] <;> assumption
  have hzB : (sortByY (viewportV (fbW s) (fbH s) (wdivV v0))
      (viewportV (fbW s) (fbH s) (wdivV v1))
      (viewportV (fbW s) (fbH s) (wdivV v2))).2.1.position.z = c2 := by
    rcases hmB with h | h | h <;> rw [h] <;> assumption
  have hzC : (sortByY (viewportV (fbW s) (fbH s) (wdivV v0))
      (viewportV (fbW s) (fbH s) (wdivV v1))
      (viewportV (fbW s) (fbH s) (wdivV v2))).2.2.position.z = c2 := by
    rcases hmC with h | h | h <;> rw [h] <;> assumption
  unfold fill_triangle
  unfold fill_visits at hb
  dsimp only at hb ⊢
  exact fill_core_noop shader c1 c2 hlt s db _ _ _ hd hzA hzB hzC hb

theorem setZc_y (c : ℚ) (v : vertex) : (setZc c v).position.y = v.position.y := rfl

theorem zzSt_steps (st : line3d_stepper) : (zzSt st).steps = st.steps := rfl

theorem step_zz (st : line3d_stepper) :
    (zzSt st).step = (st.step.1, zzSt st.step.2) := by
  unfold line3d_stepper.step zzSt
  dsimp only
  split_ifs with hi
  · rfl
  · simp [setZc, vadd]

theorem init_zz (a b : vertex) (pol : calc_steps_based_on) :
    line3d_stepper.init ⟨setZc 0 a, setZc 0 b⟩ pol =
      zzSt (line3d_stepper.init ⟨a, b⟩ pol) := by
  unfold line3d_stepper.init
  cases pol <;>
    (dsimp only [setZc, roundXY, vsub, vdiv]
     split_ifs <;> simp [zzSt, setZc, zeroVertex])

theorem visits_pixel_zz : ∀ (n : ℕ) (lx : line3d_stepper),
    visits_pixel n (zzSt lx) = visits_pixel n lx := by
  intro n
  induction n with
  | zero => intro lx; rfl
  | succ k ih =>
    intro lx
    rw [visits_pixel_succ, visits_pixel_succ, step_zz]
    dsimp only
    have hx : (zzSt lx).current.position.x = lx.current.position.x := rfl
    have hy : (zzSt lx).current.position.y = lx.current.position.y := rfl
    rw [hx, hy, ih]

theorem visits_scan_zz : ∀ (n : ℕ) (la lb : line3d_stepper),
    visits_scan n (zzSt la) (zzSt lb) = visits_scan n la lb := by
  intro n
  induction n with
  | zero => intro la lb; rfl
  | succ k ih =>
    intro la lb
    rw [visits_scan_succ, visits_scan_succ]
    have hc : (⟨(zzSt la).current, (zzSt lb).current⟩ : line3d) =
        ⟨setZc 0 la.current, setZc 0 lb.current⟩ := rfl
    rw [hc, init_zz, zzSt_steps, visits_pixel_zz, step_zz, step_zz]
    dsimp only
    rw [ih]

theorem vfl_zz (a b c d : vertex) :
    visits_from_lines ⟨setZc 0 a, setZc 0 b⟩ ⟨setZc 0 c, setZc 0 d⟩ =
      visits_from_lines ⟨a, b⟩ ⟨c, d⟩ := by
  unfold visits_from_lines
  dsimp only
  have hx : (setZc 0 a).position.x = a.position.x := rfl
  have hx2 : (setZc 0 c).position.x = c.position.x := rfl
  rw [hx, hx2]
  split_ifs with hgt <;>
    (dsimp only
     rw [init_zz, init_zz, zzSt_steps, zzSt_steps, visits_scan_zz])

theorem sortByY_map (f : vertex → vertex) (hy : ∀ v, (f v).position.y = v.position.y)
    (a b c : vertex) :
    sortByY (f a) (f b) (f c) =
      (f (sortByY a b c).1, f (sortByY a b c).2.1, f (sortByY a b c).2.2) := by
  unfold sortByY
  by_cases h1 : a.position.y > b.position.y
  · have h1' : (f a).position.y > (f b).position.y := by rw [hy, hy]; exact h1
    rw [if_pos h1', if_pos h1]
    dsimp only
    by_cases h2 : b.position.y > c.position.y
    · have h2' : (f b).position.y > (f c).position.y := by rw [hy, hy]; exact h2
      rw [if_pos h2', if_pos h2]
      dsimp only
      rw [if_pos h1', if_pos h1]
    · have h2' : ¬(f b).position.y > (f c).position.y := by rw [hy, hy]; exact h2
      rw [if_neg h2', if_neg h2]
      dsimp only
      by_cases h3 : a.position.y > c.position.y
      · have h3' : (f a).position.y > (f c).position.y := by rw [hy, hy]; exact h3
        rw [if_pos h3', if_pos h3]
      · have h3' : ¬(f a).position.y > (f c).position.y := by rw [hy, hy]; exact h3
        rw [if_neg h3', if_neg h3]
  · have h1' : ¬(f a).position.y > (f b).position.y := by rw [hy, hy]; exact h1
    rw [if_neg h1', if_neg h1]
    dsimp only
    by_cases h2 : a.position.y > c.position.y
    · have h2' : (f a).position.y > (f c).position.y := by rw [hy, hy]; exact h2
      rw [if_pos h2', if_pos h2]
      dsimp only
      by_cases h3 : b.position.y > a.position.y
      · have h3' : (f b).position.y > (f a).position.y := by rw [hy, hy]; exact h3
        rw [if_pos h3', if_pos h3]
      · have h3' : ¬(f b).position.y > (f a).position.y := by rw [hy, hy]; exact h3
        rw [if_neg h3', if_neg h3]
    · have h2' : ¬(f a).position.y > (f c).position.y := by rw [hy, hy]; exact h2
      rw [if_neg h2', if_neg h2]
      dsimp only
      by_cases h3 : b.position.y > c.position.y
      · have h3' : (f b).position.y > (f c).position.y := by rw [hy, hy]; exact h3
        rw [if_pos h3', if_pos h3]
      · have h3' : ¬(f b).position.y > (f c).position.y := by rw [hy, hy]; exact h3
        rw [if_neg h3', if_neg h3]

theorem lerp_setZc (a b : vertex) (t : ℚ) :
    vertex.lerp (setZc 0 a) (setZc 0 b) t = setZc 0 (vertex.lerp a b t) := by
  unfold vertex.lerp vec4_lerp setZc
  dsimp only
  simp [stdLerp]

theorem u_setZc (W H : ℤ) (c : ℚ) (v : vertex) :
    viewportV W H (wdivV (setZc c v)) =
      setZc (c / v.position.w) (viewportV W H (wdivV v)) := rfl

/-- The pixel coordinates swept by the scanline fill do not depend on
the z components of the three vertices. -/
theorem fill_visits_erase (W H : ℤ) (v0 v1 v2 : vertex) :
    fill_visits W H (setZc 0 v0) (setZc 0 v1) (setZc 0 v2) =
      fill_visits W H v0 v1 v2 := by
  unfold fill_visits
  dsimp only
  rw [u_setZc, u_setZc, u_setZc]
  simp only [zero_div]
  rw [sortByY_map (setZc 0) (fun v => rfl)]
  dsimp only
  simp only [setZc_y, lerp_setZc, vfl_zz]

theorem visible_of_bounds (x y z : ℚ) (hx : |x| ≤ 1) (hy : |y| ≤ 1) (hz : |z| ≤ 1) :
    visible_point ⟨x, y, z, 1⟩ := by
  obtain ⟨hx1, hx2⟩ := abs_le.mp hx
  obtain ⟨hy1, hy2⟩ := abs_le.mp hy
  obtain ⟨hz1, hz2⟩ := abs_le.mp hz
  unfold visible_point
  dsimp only
  exact ⟨by linarith, by linarith, by linarith, by linarith, by linarith, by linarith⟩

/-- C2: the per-pixel depth test is a strict less-than.  (1) In the
fill_triangle pixel body, when a depth buffer is present and the
interpolated z is not strictly smaller than the stored depth (in
particular when they are equal), neither the depth buffer nor the color
buffer changes.  (2) The same holds for the raster_triangle_scanline
pixel body.  (3) Rendering the same fully visible triangle twice, first
at constant depth c1 and then at the strictly farther constant depth
c2 > c1, leaves both the depth buffer and the color buffer exactly as
the first (nearer) pass left them. -/
theorem C2_strict_depth_test (shader : vertex → Option byte3)
    (s : render_state) (db : depth_buffer) (hd : s.depth = some db)
    (c1 c2 : ℚ) (hlt : c1 < c2) (hc1 : |c1| ≤ 1) (hc2 : |c2| ≤ 1)
    (x0 y0 x1 y1 x2 y2 : ℚ) (A0 A1 A2 : List attrData)
    (hx0 : |x0| ≤ 1) (hy0 : |y0| ≤ 1) (hx1 : |x1| ≤ 1) (hy1 : |y1| ≤ 1)
    (hx2 : |x2| ≤ 1) (hy2 : |y2| ≤ 1) :
    (∀ (v : vertex) (st : render_state) (db' : depth_buffer),
      st.depth = some db' →
      ¬v.position.z < db'.data (ratTrunc v.position.x) (ratTrunc v.position.y) →
      (process_pixel shader v st).depth = st.depth ∧
        (process_pixel shader v st).color = st.color) ∧
    (∀ (shaderR : vertex → color_rgba)
        (blend : color_rgba → color_rgba → color_rgba)
        (v : vertex) (st : rgba_state) (db' : depth_buffer),
      st.depth = some db' →
      ¬v.position.z < db'.data (ratTrunc v.position.x) (ratTrunc v.position.y) →
      process_pixel_rgba shaderR blend v st = st) ∧
    ((render_triangle shader
        (render_triangle shader s ⟨⟨x0, y0, c1, 1⟩, A0⟩ ⟨⟨x1, y1, c1, 1⟩, A1⟩
          ⟨⟨x2, y2, c1, 1⟩, A2⟩)
        ⟨⟨x0, y0, c2, 1⟩, A0⟩ ⟨⟨x1, y1, c2, 1⟩, A1⟩ ⟨⟨x2, y2, c2, 1⟩, A2⟩).depth =
      (render_triangle shader s ⟨⟨x0, y0, c1, 1⟩, A0⟩ ⟨⟨x1, y1, c1, 1⟩, A1⟩
        ⟨⟨x2, y2, c1, 1⟩, A2⟩).depth ∧
      (render_triangle shader
        (render_triangle shader s ⟨⟨x0, y0, c1, 1⟩, A0⟩ ⟨⟨x1, y1, c1, 1⟩, A1⟩
          ⟨⟨x2, y2, c1, 1⟩, A2⟩)
        ⟨⟨x0, y0, c2, 1⟩, A0⟩ ⟨⟨x1, y1, c2, 1⟩, A1⟩ ⟨⟨x2, y2, c2, 1⟩, A2⟩).color =
      (render_triangle shader s ⟨⟨x0, y0, c1, 1⟩, A0⟩ ⟨⟨x1, y1, c1, 1⟩, A1⟩
        ⟨⟨x2, y2, c1, 1⟩, A2⟩).color) := by
  refine ⟨?_, ?_, ?_⟩
  · intro v st db' hd' hge
    rw [process_pixel_noop_eq shader v st db' hd' hge]
    exact ⟨rfl, rfl⟩
  · intro shaderR blend v st db' hd' hge
    unfold process_pixel_rgba
    rw [hd']
    dsimp only
    rw [if_neg hge]
  · have hrt1 : render_triangle shader s ⟨⟨x0, y0, c1, 1⟩, A0⟩
        ⟨⟨x1, y1, c1, 1⟩, A1⟩ ⟨⟨x2, y2, c1, 1⟩, A2⟩ =
        fill_triangle shader s ⟨⟨x0, y0, c1, 1⟩, A0⟩ ⟨⟨x1, y1, c1, 1⟩, A1⟩
          ⟨⟨x2, y2, c1, 1⟩, A2⟩ := by
      unfold render_triangle
      rw [if_pos ⟨visible_of_bounds x0 y0 c1 hx0 hy0 hc1,
        visible_of_bounds x1 y1 c1 hx1 hy1 hc1,
        visible_of_bounds x2 y2 c1 hx2 hy2 hc1⟩]
    have hrt2 : ∀ st : render_state, render_triangle shader st ⟨⟨x0, y0, c2, 1⟩, A0⟩
        ⟨⟨x1, y1, c2, 1⟩, A1⟩ ⟨⟨x2, y2, c2, 1⟩, A2⟩ =
        fill_triangle shader st ⟨⟨x0, y0, c2, 1⟩, A0⟩ ⟨⟨x1, y1, c2, 1⟩, A1⟩
          ⟨⟨x2, y2, c2, 1⟩, A2⟩ := by
      intro st
      unfold render_triangle
      rw [if_pos ⟨visible_of_bounds x0 y0 c2 hx0 hy0 hc2,
        visible_of_bounds x1 y1 c2 hx1 hy1 hc2,
        visible_of_bounds x2 y2 c2 hx2 hy2 hc2⟩]
    obtain ⟨db1, hdb1, hpres1, hvis1⟩ := fill_post shader c1 s db
      ⟨⟨x0, y0, c1, 1⟩, A0⟩ ⟨⟨x1, y1, c1, 1⟩, A1⟩ ⟨⟨x2, y2, c1, 1⟩, A2⟩
      hd rfl rfl rfl rfl rfl rfl
    obtain ⟨hW, hH⟩ := fb_of_shape s
      (fill_triangle shader s ⟨⟨x0, y0, c1, 1⟩, A0⟩ ⟨⟨x1, y1, c1, 1⟩, A1⟩
        ⟨⟨x2, y2, c1, 1⟩, A2⟩)
      (fill_triangle_shape shader s ⟨⟨x0, y0, c1, 1⟩, A0⟩ ⟨⟨x1, y1, c1, 1⟩, A1⟩
        ⟨⟨x2, y2, c1, 1⟩, A2⟩)
    have hfv : fill_visits (fbW s) (fbH s) ⟨⟨x0, y0, c2, 1⟩, A0⟩
        ⟨⟨x1, y1, c2, 1⟩, A1⟩ ⟨⟨x2, y2, c2, 1⟩, A2⟩ =
        fill_visits (fbW s) (fbH s) ⟨⟨x0, y0, c1, 1⟩, A0⟩ ⟨⟨x1, y1, c1, 1⟩, A1⟩
          ⟨⟨x2, y2, c1, 1⟩, A2⟩ := by
      rw [← fill_visits_erase (fbW s) (fbH s) ⟨⟨x0, y0, c2, 1⟩, A0⟩
            ⟨⟨x1, y1, c2, 1⟩, A1⟩ ⟨⟨x2, y2, c2, 1⟩, A2⟩,
          ← fill_visits_erase (fbW s) (fbH s) ⟨⟨x0, y0, c1, 1⟩, A0⟩
            ⟨⟨x1, y1, c1, 1⟩, A1⟩ ⟨⟨x2, y2, c1, 1⟩, A2⟩]
      rfl
    have hb2 : ∀ p ∈ fill_visits
        (fbW (fill_triangle shader s ⟨⟨x0, y0, c1, 1⟩, A0⟩ ⟨⟨x1, y1, c1, 1⟩, A1⟩
          ⟨⟨x2, y2, c1, 1⟩, A2⟩))
        (fbH (fill_triangle shader s ⟨⟨x0, y0, c1, 1⟩, A0⟩ ⟨⟨x1, y1, c1, 1⟩, A1⟩
          ⟨⟨x2, y2, c1, 1⟩, A2⟩))
        ⟨⟨x0, y0, c2, 1⟩, A0⟩ ⟨⟨x1, y1, c2, 1⟩, A1⟩ ⟨⟨x2, y2, c2, 1⟩, A2⟩,
        db1.data p.1 p.2 ≤ c1 := by
      rw [hW, hH, hfv]
      exact hvis1
    obtain ⟨hdp, hcp⟩ := fill_noop shader c1 c2 hlt
      (fill_triangle shader s ⟨⟨x0, y0, c1, 1⟩, A0⟩ ⟨⟨x1, y1, c1, 1⟩, A1⟩
        ⟨⟨x2, y2, c1, 1⟩, A2⟩)
      db1 ⟨⟨x0, y0, c2, 1⟩, A0⟩ ⟨⟨x1, y1, c2, 1⟩, A1⟩ ⟨⟨x2, y2, c2, 1⟩, A2⟩
      hdb1 rfl rfl rfl rfl rfl rfl hb2
    rw [hrt1, hrt2]
    exact ⟨hdp, hcp⟩

theorem C2_witness :
    ((⟨none, some ⟨2, 2, fun _ _ => (5 : ℚ)⟩, []⟩ : render_state).depth =
        some ⟨2, 2, fun _ _ => (5 : ℚ)⟩ ∧
      (0 : ℚ) < 1 ∧ |(0 : ℚ)| ≤ 1 ∧ |(1 : ℚ)| ≤ 1 ∧
      |(-1 : ℚ)| ≤ 1 ∧ |(-1 : ℚ)| ≤ 1 ∧ |(1 : ℚ)| ≤ 1 ∧ |(-1 : ℚ)| ≤ 1 ∧
      |(0 : ℚ)| ≤ 1 ∧ |(1 : ℚ)| ≤ 1) ∧
    ((∀ (v : vertex) (st : render_state) (db' : depth_buffer),
      st.depth = some db' →
      ¬v.position.z < db'.data (ratTrunc v.position.x) (ratTrunc v.position.y) →
      (process_pixel (fun _ => none) v st).depth = st.depth ∧
        (process_pixel (fun _ => none) v st).color = st.color) ∧
    (∀ (shaderR : vertex → color_rgba)
        (blend : color_rgba → color_rgba → color_rgba)
        (v : vertex) (st : rgba_state) (db' : depth_buffer),
      st.depth = some db' →
      ¬v.position.z < db'.data (ratTrunc v.position.x) (ratTrunc v.position.y) →
      process_pixel_rgba shaderR blend v st = st) ∧
    ((render_triangle (fun _ => none)
        (render_triangle (fun _ => none)
          ⟨none, some ⟨2, 2, fun _ _ => (5 : ℚ)⟩, []⟩
          ⟨⟨-1, -1, 0, 1⟩, []⟩ ⟨⟨1, -1, 0, 1⟩, []⟩ ⟨⟨0, 1, 0, 1⟩, []⟩)
        ⟨⟨-1, -1, 1, 1⟩, []⟩ ⟨⟨1, -1, 1, 1⟩, []⟩ ⟨⟨0, 1, 1, 1⟩, []⟩).depth =
      (render_triangle (fun _ => none)
        ⟨none, some ⟨2, 2, fun _ _ => (5 : ℚ)⟩, []⟩
        ⟨⟨-1, -1, 0, 1⟩, []⟩ ⟨⟨1, -1, 0, 1⟩, []⟩ ⟨⟨0, 1, 0, 1⟩, []⟩).depth ∧
      (render_triangle (fun _ => none)
        (render_triangle (fun _ => none)
          ⟨none, some ⟨2, 2, fun _ _ => (5 : ℚ)⟩, []⟩
          ⟨⟨-1, -1, 0, 1⟩, []⟩ ⟨⟨1, -1, 0, 1⟩, []⟩ ⟨⟨0, 1, 0, 1⟩, []⟩)
        ⟨⟨-1, -1, 1, 1⟩, []⟩ ⟨⟨1, -1, 1, 1⟩, []⟩ ⟨⟨0, 1, 1, 1⟩, []⟩).color =
      (render_triangle (fun _ => none)
        ⟨none, some ⟨2, 2, fun _ _ => (5 : ℚ)⟩, []⟩
        ⟨⟨-1, -1, 0, 1⟩, []⟩ ⟨⟨1, -1, 0, 1⟩, []⟩ ⟨⟨0, 1, 0, 1⟩, []⟩).color)) :=
  ⟨⟨rfl, by decide, by decide, by decide, by decide, by decide, by decide,
    by decide, by decide, by decide⟩,
   C2_strict_depth_test (fun _ => none)
     ⟨none, some ⟨2, 2, fun _ _ => (5 : ℚ)⟩, []⟩ ⟨2, 2, fun _ _ => (5 : ℚ)⟩ rfl
     0 1 (by decide) (by decide) (by decide)
     (-1) (-1) 1 (-1) 0 1 [] [] []
     (by decide) (by decide) (by decide) (by decide) (by decide) (by decide)⟩
